import Mathlib

/-!
Verification of the SU Shell core against its specification.

This file gives a shallow embedding, in Lean 4, of the parts of the SU Shell
sources that the specification's claims are about:

* `src/parser.c` — the character-level tokenizer state machine and the command
  assembler (`parse_command` and its helpers);
* `src/environ.c` — the insertion-ordered environment store;
* `src/internal.c` — the built-in command handlers (`setenv`, `getenv`, `cd`, …);
* `src/background.c` (the revision with the `job_count`/`sig_handler` queue) —
  the background job queue.

C strings are modelled as `List Char` (the characters strictly before the NUL
terminator, so `'\x00'` never occurs in a modelled string).  C `int` values are
modelled as `Int`; the C `bool` conversion (any nonzero value becomes `1`) is
modelled explicitly where the sources mix `int` error codes with `bool` return
types.  Stateful code is modelled by explicit state passing; functions that can
crash on a NULL dereference return `Option`.
-/

namespace Sush

/-- Definition of the status codes from `runner.h`: `#define ERROR -1`. -/
def ERROR : Int := -1

/-- Definition of the status code from `runner.h`: `#define SUCCESS 1`. -/
def SUCCESS : Int := 1

/-- Definition of the status code from `runner.h`: `#define EXIT_SHELL 999`. -/
def EXIT_SHELL : Int := 999

/-- C conversion of an `int` to `_Bool`: every nonzero value becomes true.
This matters because `parser.c` declares `is_valid_stdout` with return type
`bool` while returning the `int` constants `ERROR` (-1) and `SUCCESS` (1). -/
def intAsBool (i : Int) : Bool := i ≠ 0

/-- Translation of `sub_string` (parser.c): the substring of `str` starting at
index `start` with at most `length` characters, cut off at the end of the
string (`i < strlen(str)` bound in the C loop). -/
def sub_string (str : List Char) (start length : Nat) : List Char :=
  (str.drop start).take length

namespace Parse

/-- Token types from `enum token_types_e` in parser.c. -/
inductive TokType where
  | TOKEN_NORMAL
  | TOKEN_REDIR
  | TOKEN_FNAME_IN
  | TOKEN_FNAME_OUT_OVERWRITE
  | TOKEN_FNAME_OUT_APPEND
deriving DecidableEq

export TokType (TOKEN_NORMAL TOKEN_REDIR TOKEN_FNAME_IN TOKEN_FNAME_OUT_OVERWRITE TOKEN_FNAME_OUT_APPEND)

/-- The parser's token (`struct token_t`): text plus type tag. -/
structure Tok where
  token_text : List Char
  token_type : TokType
deriving DecidableEq

/-- Translation of `split_cmdline` (parser.c).  The C routine scans the
command line and, on each `'|'`, `'\n'` (or `'\0'`, which cannot occur inside
the string), copies the characters accumulated since the previous separator
into the output array.  Characters after the final separator are never
emitted, exactly as in the C loop (it only emits on seeing a separator). -/
def split_cmdline_go (acc : List Char) : List Char → List (List Char)
  | [] => []
  | c :: rest =>
    if c = '|' ∨ c = '\n' then acc.reverse :: split_cmdline_go [] rest
    else split_cmdline_go (c :: acc) rest

/-- Entry point of `split_cmdline`: start with an empty accumulated segment. -/
def split_cmdline (cmdline : List Char) : List (List Char) :=
  split_cmdline_go [] cmdline

/-- Translation of `get_num_subcommands` (runner.c): number of `'|'`
characters plus one. -/
def get_num_subcommands (cmdline : List Char) : Nat :=
  cmdline.count '|' + 1

/-- States of the tokenizer state machine (`enum state_e`). -/
inductive SMState where
  | WHITESPACE
  | CHAR
  | QUOTE
deriving DecidableEq

export SMState (WHITESPACE CHAR QUOTE)

/-- The state machine record (`struct state_machine_t`).  The C field
`cmd_len` is always `strlen(cmdline)` and is kept implicit (we pass the
command around instead). -/
structure SM where
  state : SMState
  position : Nat
  sub_start : Nat
  sub_len : Nat
deriving DecidableEq

/-- The state-machine reset performed by `add_token_node` (parser.c) after a
token is appended: the next substring starts at the current position, has
length 0, and the machine returns to `WHITESPACE`.  (The token itself is
appended by the caller in this model.) -/
def add_token_node (sm : SM) : SM :=
  { sm with sub_start := sm.position, sub_len := 0, state := WHITESPACE }

/-- Translation of `do_ws` (parser.c): handler for the `WHITESPACE` state. -/
def do_ws (sm : SM) (c : Char) : SM :=
  if c = '"' then
    { sm with sub_start := sm.position + 1, sub_len := 1, state := QUOTE }
  else if c ≠ ' ' ∧ c ≠ '\t' then
    { sm with sub_start := sm.position, sub_len := 1, state := CHAR }
  else
    sm

/-- Translation of `do_char` (parser.c): handler for the `CHAR` state.  The C
code also ends the substring on `'\0'`, which cannot occur inside the string,
so only space and tab are checked here.  Returns the emitted tokens together
with the new machine state. -/
def do_char (cmdline : List Char) (sm : SM) (c : Char) : List Tok × SM :=
  if c = ' ' ∨ c = '\t' then
    ([⟨sub_string cmdline sm.sub_start sm.sub_len, TOKEN_NORMAL⟩], add_token_node sm)
  else
    ([], { sm with sub_len := sm.sub_len + 1 })

/-- Translation of `do_quote` (parser.c): handler for the `QUOTE` state.  In
the loop the character is never `'\0'`, so the run is extended exactly when
the character is not `'"'`; a closing quote emits the substring with the
pre-decremented length (`--sm->sub_len`). -/
def do_quote (cmdline : List Char) (sm : SM) (c : Char) : List Tok × SM :=
  if c ≠ '"' then
    ([], { sm with sub_len := sm.sub_len + 1 })
  else
    ([⟨sub_string cmdline sm.sub_start (sm.sub_len - 1), TOKEN_NORMAL⟩], add_token_node sm)

/-- Translation of `parse_redirection_token` (parser.c).  If an in-progress
substring exists (`sub_len != 0`) it is emitted first.  For `'>'` the next
character of the command line (in C, `cmdline[sm->position + 1]`, which is the
NUL terminator when the position is at the last character — hence the
`Option` lookup) decides between a two-character `">>"` token, after which
`sm->position` is incremented an extra step, and a single `">"`.  For any
other character (the tokenizer only calls this with `'<'` or `'>'`) a
one-character token is emitted. -/
def parse_redirection_token (cmdline : List Char) (sm : SM) (c : Char) : List Tok × SM :=
  let (pending, sm1) :=
    if sm.sub_len ≠ 0 then
      ([(⟨sub_string cmdline sm.sub_start sm.sub_len, TOKEN_NORMAL⟩ : Tok)], add_token_node sm)
    else
      (([] : List Tok), sm)
  if c = '>' then
    if cmdline.get? (sm1.position + 1) = some '>' then
      (pending ++ [⟨sub_string cmdline sm1.position 2, TOKEN_NORMAL⟩],
        { add_token_node sm1 with position := sm1.position + 1 })
    else
      (pending ++ [⟨sub_string cmdline sm1.position 1, TOKEN_NORMAL⟩], add_token_node sm1)
  else
    (pending ++ [⟨sub_string cmdline sm1.position 1, TOKEN_NORMAL⟩], add_token_node sm1)

/-- The final emission after the scanning loop of `tokenizer` (parser.c): if
the machine is not in `WHITESPACE`, a last substring remains and is emitted
with `sub_string(cmdline, sm->sub_start, sm->position)`. -/
def tokenizer_final (cmdline : List Char) (sm : SM) (acc : List Tok) : List Tok :=
  if sm.state ≠ WHITESPACE then
    acc ++ [⟨sub_string cmdline sm.sub_start sm.position, TOKEN_NORMAL⟩]
  else
    acc

/-- The scanning loop of `tokenizer` (parser.c), driven by fuel.  Each C loop
iteration advances `sm->position` by at least one, so `cmdline.length` units
of fuel always suffice and the fuel-exhaustion case is unreachable when the
loop is started by `tokenizer` below (it coincides with loop exit anyway). -/
def tokenizer_loop (cmdline : List Char) : Nat → SM → List Tok → List Tok
  | 0, sm, acc => tokenizer_final cmdline sm acc
  | fuel + 1, sm, acc =>
    if h : sm.position < cmdline.length then
      let c := cmdline.get ⟨sm.position, h⟩
      let step : List Tok × SM :=
        if sm.state ≠ QUOTE ∧ (c = '<' ∨ c = '>') then
          parse_redirection_token cmdline sm c
        else
          match sm.state with
          | CHAR => do_char cmdline sm c
          | QUOTE => do_quote cmdline sm c
          | WHITESPACE => ([], do_ws sm c)
      tokenizer_loop cmdline fuel { step.2 with position := step.2.position + 1 } (acc ++ step.1)
    else
      tokenizer_final cmdline sm acc

/-- Translation of `tokenizer` (parser.c): the machine starts at position 0 in
state `WHITESPACE` with no substring (`initialize_statemachine`), scans the
whole segment, and finally emits any trailing substring. -/
def tokenizer (cmdline : List Char) : List Tok :=
  tokenizer_loop cmdline cmdline.length ⟨WHITESPACE, 0, 0, 0⟩ []

/-- Redirection types from `enum redirect_type_e` in cmdline.h. -/
inductive RedirType where
  | REDIRECT_NONE
  | FILE_IN
  | FILE_OUT_OVERWRITE
  | FILE_OUT_APPEND
deriving DecidableEq

export RedirType (REDIRECT_NONE FILE_IN FILE_OUT_OVERWRITE FILE_OUT_APPEND)

/-- Translation of `is_redirection_token` (parser.c): token types tagged onto
filenames that follow a redirection symbol. -/
def is_redirection_token (token_type : TokType) : Bool :=
  token_type = TOKEN_FNAME_OUT_OVERWRITE ∨ token_type = TOKEN_FNAME_OUT_APPEND ∨
    token_type = TOKEN_FNAME_IN

/-- Translation of `is_redirection_text` (parser.c): the token text is one of
the three redirection operators. -/
def is_redirection_text (token_text : List Char) : Bool :=
  token_text = ">".toList ∨ token_text = ">>".toList ∨ token_text = "<".toList

/-- The re-tagging of a filename token performed inside
`is_tokens_redirection_valid` (parser.c): the token following a redirection
operator receives the type corresponding to the operator's text. -/
def retag_fname (tokstr : List Char) (fname_tok : Tok) : Tok :=
  if tokstr = ">".toList then { fname_tok with token_type := TOKEN_FNAME_OUT_OVERWRITE }
  else if tokstr = ">>".toList then { fname_tok with token_type := TOKEN_FNAME_OUT_APPEND }
  else if tokstr = "<".toList then { fname_tok with token_type := TOKEN_FNAME_IN }
  else fname_tok

/-- Translation of `is_tokens_redirection_valid` (parser.c).  The C routine
walks the token list; on a token whose *text* is a redirection operator it
fails if that token is last, otherwise it re-tags the immediately following
token, deletes the operator node, and continues the scan *at the re-tagged
token* (`curr = next->prev` followed by the loop increment).  Because the scan
re-examines the following token by text, a re-tagged token whose text is
itself an operator is consumed again (its tag never matters), which the
second branch below reproduces by recursing on the unmodified `f :: rest2`. -/
def is_tokens_redirection_valid : List Tok → Option (List Tok)
  | [] => some []
  | t :: rest =>
    if is_redirection_text t.token_text then
      match rest with
      | [] => none
      | f :: rest2 =>
        if is_redirection_text f.token_text then
          is_tokens_redirection_valid (f :: rest2)
        else
          match is_tokens_redirection_valid rest2 with
          | none => none
          | some l => some (retag_fname t.token_text f :: l)
    else
      match is_tokens_redirection_valid rest with
      | none => none
      | some l => some (t :: l)

/-- The command descriptor (`struct command_t` in cmdline.h).  `tokens` holds
the argv strings without the terminating NULL sentinel; `num_tokens` counts
the sentinel as in the C code (`list_size(head) + 1`), and `cmd_name` is
`tokens[0]`, which is absent when the argv is empty (in C it is then an
uninitialized stack value). -/
structure Command where
  num_tokens : Nat
  tokens : List (List Char)
  cmd_name : Option (List Char)
  pipe_in : Bool
  pipe_out : Bool
  file_in : RedirType
  infile : Option (List Char)
  file_out : RedirType
  outfile : Option (List Char)
deriving DecidableEq

/-- Translation of `set_redirection_out` (parser.c): error if the output
redirection was already chosen, otherwise record filename and type. -/
def set_redirection_out (command : Command) (token : Tok) (token_type : RedirType) :
    Option Command :=
  if command.file_out ≠ REDIRECT_NONE then none
  else some { command with outfile := some token.token_text, file_out := token_type }

/-- Translation of `set_redirection_in` (parser.c): error if the input
redirection was already chosen, otherwise record filename and type. -/
def set_redirection_in (command : Command) (token : Tok) (token_type : RedirType) :
    Option Command :=
  if command.file_in ≠ REDIRECT_NONE then none
  else some { command with infile := some token.token_text, file_in := token_type }

/-- Translation of `set_command_redirections` (parser.c): walk the tokens; a
filename token populates the corresponding channel of the command (error when
that channel is already set) and is removed from the list; all other tokens
are kept. -/
def set_command_redirections : Command → List Tok → Option (Command × List Tok)
  | command, [] => some (command, [])
  | command, token :: rest =>
    if is_redirection_token token.token_type then
      let res :=
        if token.token_type = TOKEN_FNAME_OUT_OVERWRITE then
          set_redirection_out command token FILE_OUT_OVERWRITE
        else if token.token_type = TOKEN_FNAME_OUT_APPEND then
          set_redirection_out command token FILE_OUT_APPEND
        else
          set_redirection_in command token FILE_IN
      match res with
      | none => none
      | some command2 => set_command_redirections command2 rest
    else
      match set_command_redirections command rest with
      | none => none
      | some (command2, rem) => some (command2, token :: rem)

/-- Translation of `set_command_tokens` (parser.c): the remaining tokens
become the argv array; `num_tokens` is the list size plus one (the NULL
sentinel) and `cmd_name` is the first entry. -/
def set_command_tokens (command : Command) (rem : List Tok) : Command :=
  { command with
    tokens := rem.map Tok.token_text,
    num_tokens := rem.length + 1,
    cmd_name := (rem.map Tok.token_text).head? }

/-- The initialization of the command structure performed at the top of
`tokens_to_command` (parser.c): no file redirections yet, and the pipe flags
determined by the segment position (`pipe_in` iff not the first segment,
`pipe_out` iff not the last). -/
def init_command (command_position num_commands : Nat) : Command :=
  { num_tokens := 0, tokens := [], cmd_name := none,
    pipe_in := command_position ≠ 0,
    pipe_out := command_position ≠ num_commands - 1,
    file_in := REDIRECT_NONE, infile := none,
    file_out := REDIRECT_NONE, outfile := none }

/-- Translation of `tokens_to_command` (parser.c): initialize the redirection
fields, set the pipe flags from the segment position, extract the file
redirections (propagating a malformed-command error) and materialize argv. -/
def tokens_to_command (head : List Tok) (command_position num_commands : Nat) :
    Option Command :=
  match set_command_redirections (init_command command_position num_commands) head with
  | none => none
  | some (command2, rem) => some (set_command_tokens command2 rem)

/-- Translation of `is_valid_stdin` (parser.c), return type `int`: a segment
may not both read from a pipe and from a file, and a file redirection must
carry a filename. -/
def is_valid_stdin (pipe_in : Bool) (redir_type : RedirType) (in_fname : Option (List Char)) :
    Int :=
  if pipe_in ∧ redir_type = FILE_IN then ERROR
  else if redir_type = FILE_IN ∧ in_fname = none then ERROR
  else SUCCESS

/-- Translation of `is_valid_stdout` (parser.c).  The C function is declared
with return type `bool` but returns the `int` constants `ERROR` (-1) and
`SUCCESS` (1); the implicit C conversion to `_Bool` maps both to `true`, so
the function can never signal an error to its caller. -/
def is_valid_stdout (pipe_out : Bool) (redir_type : RedirType) (out_fname : Option (List Char)) :
    Bool :=
  intAsBool
    (if pipe_out ∧ (redir_type = FILE_OUT_OVERWRITE ∨ redir_type = FILE_OUT_APPEND) then ERROR
     else if (redir_type = FILE_OUT_OVERWRITE ∨ redir_type = FILE_OUT_APPEND) ∧ out_fname = none
       then ERROR
     else SUCCESS)

/-- Translation of `is_valid_command` (parser.c): check the stdin and stdout
configurations.  The stdout result is assigned to an `int` (`rc`) after
passing through the `bool` return type of `is_valid_stdout`, so `rc` is 0 or
1 and the `rc < 0` test on it can never fire. -/
def is_valid_command (command : Command) : Int :=
  let rc1 := is_valid_stdin command.pipe_in command.file_in command.infile
  if rc1 < 0 then ERROR
  else
    let rc2 : Int := if is_valid_stdout command.pipe_out command.file_out command.outfile then 1 else 0
    if rc2 < 0 then ERROR
    else SUCCESS

/-- The per-segment loop body of `parse_command` (parser.c): tokenize the
segment, validate and re-tag redirections, build the command structure, and
validate the channel configuration; any error aborts the whole parse. -/
def parse_segment (seg : List Char) (i n : Nat) : Option Command :=
  match is_tokens_redirection_valid (tokenizer seg) with
  | none => none
  | some toks2 =>
    match tokens_to_command toks2 i n with
    | none => none
    | some cmd => if is_valid_command cmd < 0 then none else some cmd

/-- The segment loop of `parse_command` (parser.c): parse each segment in
order, aborting on the first error. -/
def parse_command_go : List (List Char) → Nat → Nat → Option (List Command)
  | [], _, _ => some []
  | seg :: rest, i, n =>
    match parse_segment seg i n with
    | none => none
    | some cmd =>
      match parse_command_go rest (i + 1) n with
      | none => none
      | some cmds => some (cmd :: cmds)

/-- Translation of `parse_command` (parser.c) as invoked by `do_command`
(runner.c): the number of subcommands is the pipe count plus one and the
command line is split at pipes (and the terminating newline) before each
segment is parsed in order.  `none` models the `ERROR` return, on which
`do_command` reports `ERROR_INVALID_CMDLINE` ("malformed command line"). -/
def parse_command (cmdline : List Char) : Option (List Command) :=
  let num_commands := get_num_subcommands cmdline
  parse_command_go ((split_cmdline cmdline).take num_commands) 0 num_commands

/-- The pipe-separated segments a given command line is parsed into. -/
def segments (cmdline : List Char) : List (List Char) :=
  (split_cmdline cmdline).take (get_num_subcommands cmdline)

/-! Specification-level vocabulary for the claims about `parse_command`.
These definitions follow the wording of the specification, not the C control
flow, and are related to the source translation by the theorems below. -/

/-- Direction of a redirection: input (`<`) or output (`>` and `>>`). -/
inductive Dir where
  | din
  | dout
deriving DecidableEq

/-- Direction of a redirection operator, judged from its text. -/
def dir_of_text (s : List Char) : Dir :=
  if s = "<".toList then Dir.din else Dir.dout

/-- Direction carried by a filename token tag, if any. -/
def dir_of_type : TokType → Option Dir
  | TOKEN_FNAME_IN => some Dir.din
  | TOKEN_FNAME_OUT_OVERWRITE => some Dir.dout
  | TOKEN_FNAME_OUT_APPEND => some Dir.dout
  | _ => none

/-- Directions of the filename tokens in a token list. -/
def fname_dirs (l : List Tok) : List Dir :=
  l.filterMap (fun tk => dir_of_type tk.token_type)

/-- The directions of the filename tokens of a segment: one entry for every
token that is not a redirection operator but immediately follows one, carrying
that operator's direction.  (Operator tokens directly followed by another
operator token act on a token that is consumed as an operator itself and
therefore redirect nothing.) -/
def adjacent_directions : List Tok → List Dir
  | t :: f :: rest =>
    (if is_redirection_text t.token_text ∧ ¬ is_redirection_text f.token_text then
       [dir_of_text t.token_text]
     else []) ++ adjacent_directions (f :: rest)
  | _ => []

/-- Whether the last token of a segment is a redirection operator. -/
def trailing_redirection (toks : List Tok) : Bool :=
  (toks.getLast?).elim false (fun t => is_redirection_text t.token_text)

/-- The spec-level argv of a token list: a redirection operator consumes
itself and the following token; every other token is an argv entry.  Used to
state the claim's "some segment's argv is empty" condition. -/
def claimed_argv : List Tok → List Tok
  | [] => []
  | t :: rest =>
    if is_redirection_text t.token_text then
      match rest with
      | [] => []
      | _ :: rest2 => claimed_argv rest2
    else
      t :: claimed_argv rest

/-- The claim's rejection condition for one segment, as stated: a trailing
redirection operator, two redirections of the same direction, or an empty
argv. -/
def claimed_segment_fails (toks : List Tok) : Prop :=
  trailing_redirection toks = true
  ∨ 2 ≤ (toks.filter (fun t => t.token_text = ">".toList ∨ t.token_text = ">>".toList)).length
  ∨ 2 ≤ (toks.filter (fun t => t.token_text = "<".toList)).length
  ∨ claimed_argv toks = []

instance (toks : List Tok) : Decidable (claimed_segment_fails toks) := by
  unfold claimed_segment_fails
  infer_instance

/-- The rejection condition for one segment that the source actually
implements (proved equivalent below): a trailing redirection operator; two
applied redirections of the same direction (an applied redirection being an
operator immediately followed by a non-operator token); or an input-file
redirection on a segment that also reads from a pipe (every segment but the
first).  Empty argv is not rejected, and the corresponding stdout/pipe
conflict is not rejected either (`is_valid_stdout`'s error is lost in the
`bool` conversion). -/
def seg_malformed (toks : List Tok) (i : Nat) : Prop :=
  trailing_redirection toks = true
  ∨ 2 ≤ (adjacent_directions toks).count Dir.dout
  ∨ 2 ≤ (adjacent_directions toks).count Dir.din
  ∨ (i ≠ 0 ∧ Dir.din ∈ adjacent_directions toks)

instance (toks : List Tok) (i : Nat) : Decidable (seg_malformed toks i) := by
  unfold seg_malformed
  infer_instance

end Parse

namespace Env

/-- An environment entry (`struct environ_var_t` in environ.h). -/
structure EnvVar where
  name : List Char
  value : List Char
deriving DecidableEq

/-- The environment list (`LIST_HEAD(environment)` in environ.c), in
insertion order. -/
abbrev Environment := List EnvVar

/-- Translation of `split_environ_var` (environ.c): `pivot` is the index of
the first `'='` (or the string length when there is none, exactly the C
loop's fall-through); the name is the prefix of length `pivot` and the value
is the substring starting after the pivot. -/
def split_environ_var (env_var_str : List Char) : List Char × List Char :=
  let pivot := env_var_str.findIdx (fun c => c = '=')
  (sub_string env_var_str 0 pivot,
   sub_string env_var_str (pivot + 1) env_var_str.length)

/-- Translation of `environ_var_exist` (environ.c): linear scan comparing
names with `strcmp`. -/
def environ_var_exist (environment : Environment) (name : List Char) : Bool :=
  environment.any (fun v => v.name = name)

/-- Translation of `environ_add_var` (environ.c): append a copy at the tail. -/
def environ_add_var (environment : Environment) (name value : List Char) : Environment :=
  environment ++ [⟨name, value⟩]

/-- Translation of `environ_get_var` (environ.c): the first entry with the
given name, if any (the C function returns NULL otherwise). -/
def environ_get_var (environment : Environment) (name : List Char) : Option EnvVar :=
  environment.find? (fun v => v.name = name)

/-- Translation of `environ_update_var` (environ.c): overwrite the value of
the first entry with the given name (the C code calls it only when the name
exists). -/
def environ_update_var : Environment → List Char → List Char → Environment
  | [], _, _ => []
  | v :: rest, name, value =>
    if v.name = name then { v with value := value } :: rest
    else v :: environ_update_var rest name value

/-- Translation of `environ_set_var` (environ.c): update the entry when the
name exists, append it otherwise. -/
def environ_set_var (environment : Environment) (name value : List Char) : Environment :=
  if environ_var_exist environment name then environ_update_var environment name value
  else environ_add_var environment name value

/-- Translation of `make_environ` (environ.c): the `NAME=VALUE` strings in
list order. -/
def make_environ (environment : Environment) : List (List Char) :=
  environment.map (fun v => v.name ++ "=".toList ++ v.value)

/-- Translation of `environ_init` (environ.c): import every inherited entry
through `split_environ_var` in order, then `environ_set_var("PS1", ">")`, then
`environ_set_var("SUSHHOME", environ_get_var("PWD")->value)`.  When `PWD` is
absent the C code dereferences NULL, modelled by `none`. -/
def environ_init (envp : List (List Char)) : Option Environment :=
  let base : Environment :=
    envp.map (fun e => ⟨(split_environ_var e).1, (split_environ_var e).2⟩)
  let st1 := environ_set_var base ("PS1".toList) (">".toList)
  match environ_get_var st1 ("PWD".toList) with
  | none => none
  | some pwd => some (environ_set_var st1 ("SUSHHOME".toList) pwd.value)

end Env

namespace Intern

open Env

/-- Diagnostic string from error.h used by `handle_setenv`. -/
def ERROR_SETENV_ARG : List Char := "Error - setenv takes two arguments\n".toList

/-- Diagnostic string from error.h used by `handle_getenv`. -/
def ERROR_GETENV_ARG : List Char := "Error - getenv takes 0 or 1 arguments\n".toList

/-- Diagnostic string from error.h used by `handle_getenv` (the `%s` hole is
filled with the variable name). -/
def ERROR_GETENV_INVALID (name : List Char) : List Char :=
  "Error - getenv unknown variable ".toList ++ name ++ "\n".toList

/-- Diagnostic string from error.h used by `handle_cd`. -/
def ERROR_CD_ARG : List Char := "Error - cd takes one argument\n".toList

/-- Diagnostic string from error.h used by `handle_cd`. -/
def ERROR_CD_NOHOME : List Char := "Error - cd no home directory\n".toList

/-- The slice of `struct command_t` the built-in handlers read: the argv
strings and the token count (which, as in the parser, counts the NULL
sentinel). -/
structure ICmd where
  tokens : List (List Char)
  num_tokens : Nat

/-- A command descriptor for a built-in invoked with the given argv, as the
parser produces it (`num_tokens` is argv length plus the NULL sentinel). -/
def mkICmd (tokens : List (List Char)) : ICmd :=
  ⟨tokens, tokens.length + 1⟩

/-- The `#define ARGC_OFFSET 2` of internal.c: executable name and NULL
sentinel. -/
def ARGC_OFFSET : Int := 2

/-- Model of the pieces of the operating system the `cd`/`pwd` handlers
touch: the current working directory (`getcwd`) and the `chdir` system call.
`resolve p` is the canonical directory `chdir(p)` would switch to, or `none`
when `chdir` fails (e.g. the target does not exist), in which case the
working directory is unchanged.  The C buffer truncation of `getcwd` at 1024
bytes is not modelled. -/
structure OS where
  cwd : List Char
  resolve : List Char → Option (List Char)

/-- The effect of the `chdir` system call on the modelled OS state. -/
def chdir (os : OS) (path : List Char) : OS :=
  match os.resolve path with
  | some d => { os with cwd := d }
  | none => os

/-- The result of `getcwd` on the modelled OS state. -/
def getcwd (os : OS) : List Char := os.cwd

/-- Translation of `handle_setenv` (internal.c).  Returns the status, the new
environment and the diagnostics written to stderr. -/
def handle_setenv (cmd : ICmd) (environment : Environment) :
    Int × Environment × List (List Char) :=
  if (cmd.num_tokens : Int) - ARGC_OFFSET = 2 then
    (SUCCESS, environ_set_var environment (cmd.tokens.getD 1 []) (cmd.tokens.getD 2 []), [])
  else
    (ERROR, environment, [ERROR_SETENV_ARG])

/-- Translation of `handle_getenv` (internal.c).  Returns the status, the
lines printed to stdout and the diagnostics written to stderr.  The `none`
branch of the lookup is unreachable because it is guarded by
`environ_var_exist`. -/
def handle_getenv (cmd : ICmd) (environment : Environment) :
    Int × List (List Char) × List (List Char) :=
  if (cmd.num_tokens : Int) - ARGC_OFFSET = 0 then
    (SUCCESS, (make_environ environment).map (fun s => s ++ "\n".toList), [])
  else if (cmd.num_tokens : Int) - ARGC_OFFSET = 1 then
    if environ_var_exist environment (cmd.tokens.getD 1 []) then
      match environ_get_var environment (cmd.tokens.getD 1 []) with
      | some v => (SUCCESS, [v.name ++ "=".toList ++ v.value ++ "\n".toList], [])
      | none => (SUCCESS, [], [])
    else
      (ERROR, [], [ERROR_GETENV_INVALID (cmd.tokens.getD 1 [])])
  else
    (ERROR, [], [ERROR_GETENV_ARG])

/-- Translation of `handle_cd` (internal.c).  Returns the status, the new
environment, the new OS state and the stderr diagnostics.  With one argument
the handler calls `chdir(argv[1])` *ignoring its return value*, reads the
resulting working directory with `getcwd` and stores it into `PWD`, and
returns `SUCCESS` unconditionally.  The `none` branch of the `HOME` lookup is
unreachable because it is guarded by `environ_var_exist`. -/
def handle_cd (cmd : ICmd) (environment : Environment) (os : OS) :
    Int × Environment × OS × List (List Char) :=
  if (cmd.num_tokens : Int) - ARGC_OFFSET = 0 then
    if environ_var_exist environment ("HOME".toList) then
      match environ_get_var environment ("HOME".toList) with
      | some v => (SUCCESS, environment, chdir os v.value, [])
      | none => (SUCCESS, environment, os, [])
    else
      (ERROR, environment, os, [ERROR_CD_NOHOME])
  else if (cmd.num_tokens : Int) - ARGC_OFFSET = 1 then
    let os2 := chdir os (cmd.tokens.getD 1 [])
    (SUCCESS, environ_set_var environment ("PWD".toList) (getcwd os2), os2, [])
  else
    (ERROR, environment, os, [ERROR_CD_ARG])

end Intern

namespace BG

open Parse

/-- Linux signal number `SIGCHLD`; `sig_handler` is registered for exactly
this signal (`register_handler(sig_handler, SIGCHLD)` in sush.c). -/
def SIGCHLD : Int := 17

/-- Linux signal number `SIGKILL`, compared against the handler argument in
`sig_handler` (a branch that is dead under the `SIGCHLD`-only registration). -/
def SIGKILL : Int := 9

/-- Translation of `is_valid_background_command` (background.c): the check
`handle_queue` runs before enqueueing.  The source tests `pipe_in` and
`file_in` for the stdin channel and then — under the comment "stdout cannot
be changed" — tests `pipe_out` and *again `file_in`* (instead of `file_out`),
so a file redirection of stdout is never examined. -/
def is_valid_background_command (command : Command) : Bool :=
  if command.pipe_in ∨ command.file_in ≠ REDIRECT_NONE then false
  else if command.pipe_out ∨ command.file_in ≠ REDIRECT_NONE then false
  else true

/-- A queue entry (`struct queue_item_t` in background.h).  The wrapped
command descriptor is reduced to the capture-file name, which is all the
queue operations inspect.  The C code never initializes `pid` when the item
is created (`malloc` in `add_to_queue`); it is modelled as 0, the value the
status/output code treats as "not launched". -/
structure QItem where
  pid : Int
  job_id : Int
  outfile : List Char
  is_complete : Bool
deriving DecidableEq

/-- A file system as seen by the queue: capture-file names with contents. -/
abbrev FS := List (List Char × List Char)

/-- Contents of a named file (`fopen` + `fgets` loop), `none` when absent. -/
def fs_lookup (fs : FS) (fname : List Char) : Option (List Char) :=
  (fs.find? (fun e => e.1 = fname)).map (fun e => e.2)

/-- Effect of `remove(fname)`: delete the named file if present. -/
def fs_remove : FS → List Char → FS
  | [], _ => []
  | e :: rest, fname => if e.1 = fname then rest else e :: fs_remove rest fname

/-- Messages the queue writes, one constructor per format string of error.h
(`MSG_STATUS_RUNNING` is printed with the job id in both `%d` holes in the
source, so no pid argument appears here). -/
inductive Msg where
  | outputRunning (job_id : Int)
  | outputQueued (job_id : Int)
  | cancelDone (job_id : Int)
  | cancelKill (job_id : Int) (pid : Int)
  | cancelOk (job_id : Int)
  | statusComplete (job_id : Int)
  | statusQueued (job_id : Int)
  | statusRunning (job_id : Int)
deriving DecidableEq

/-- The global state of background.c: the `job_count` counter, the
`job_running` flag, the queue list, plus the observable surroundings (capture
files on disk, bytes streamed to stdout, `LOG_MSG` output, `LOG_ERROR`
output).  `assigned` is a ghost log of the job ids handed out by
`add_to_queue`, recorded only to state the monotonicity claim; no source
field corresponds to it and no operation reads it. -/
structure BGState where
  job_count : Int
  job_running : Bool
  queue : List QItem
  fs : FS
  streamed : List (List Char)
  msgs : List Msg
  errs : List Msg
  assigned : List Int
deriving DecidableEq

/-- The initial state of background.c's globals: `job_count = 0`,
`job_running = false`, empty queue. -/
def bg_init (fs : FS) : BGState :=
  ⟨0, false, [], fs, [], [], [], []⟩

/-- The file-system effect of `delete_file_and_remove_command` (background.c
part with the queue feature): the capture file is removed from disk.  The
unlinking of the item from the queue list (`list_del`) is performed by each
caller's traversal in this model, and the `free` calls have no observable
effect. -/
def delete_file_and_remove_command (fs : FS) (queue_item : QItem) : FS :=
  fs_remove fs queue_item.outfile

/-- The queue scan of `dequeue_and_execute` (background.c): give the first
not-complete item the pid of the forked child and report whether one was
found.  When `fork` fails (`newpid < 0`) the item keeps its previous pid, as
in `fork_and_execute_background`. -/
def dequeue_mark (newpid : Int) : List QItem → List QItem × Bool
  | [] => ([], false)
  | item :: rest =>
    if ¬item.is_complete then
      ((if newpid < 0 then item else { item with pid := newpid }) :: rest, true)
    else
      let (q, found) := dequeue_mark newpid rest
      (item :: q, found)

/-- Translation of `dequeue_and_execute` (background.c): when the queue holds
a not-yet-complete job, set `job_running` and fork it (the parent records the
child pid).  `newpid` is the pid returned by `fork`.  The child's execution
of the command is outside this state (its output lands in the capture file
asynchronously). -/
def dequeue_and_execute (newpid : Int) (st : BGState) : BGState :=
  let (q, found) := dequeue_mark newpid st.queue
  if found then { st with queue := q, job_running := true } else st

/-- Translation of `add_to_queue` (background.c): wrap the command in a fresh
item carrying `job_count++` as job id, append it, and start it right away
when nothing is running.  `outfile` is the capture file `set_command_channels`
stored in the command; `newpid` is the pid `fork` would return if a job is
started now. -/
def add_to_queue (outfile : List Char) (newpid : Int) (st : BGState) : BGState :=
  let queue_item : QItem :=
    { pid := 0, job_id := st.job_count, outfile := outfile, is_complete := false }
  let st2 := { st with
    queue := st.queue ++ [queue_item],
    job_count := st.job_count + 1,
    assigned := st.assigned ++ [st.job_count] }
  if ¬st.job_running then dequeue_and_execute newpid st2 else st2

/-- Translation of `print_all_job_status` (background.c): one status line per
item, in queue order. -/
def print_all_job_status (st : BGState) : BGState :=
  { st with msgs := st.msgs ++ st.queue.map (fun item =>
      if item.is_complete then Msg.statusComplete item.job_id
      else if item.pid = 0 then Msg.statusQueued item.job_id
      else Msg.statusRunning item.job_id) }

/-- The scan of `print_output_and_remove` (background.c): find the first item
with the requested job id (the loop breaks after a match).  A running or
still-queued job yields only an error message; a complete job streams the
capture file and is removed together with the file.  `none` models the crash
(`fgets` on a NULL `FILE*`) when the capture file does not exist. -/
def output_scan (job_id : Int) (fs : FS) :
    List QItem → Option (List QItem × FS × List (List Char) × List Msg)
  | [] => some ([], fs, [], [])
  | item :: rest =>
    if job_id = item.job_id then
      if item.pid ≠ 0 ∧ item.is_complete = false then
        some (item :: rest, fs, [], [Msg.outputRunning item.job_id])
      else if item.pid = 0 ∧ item.is_complete = false then
        some (item :: rest, fs, [], [Msg.outputQueued item.job_id])
      else
        match fs_lookup fs item.outfile with
        | none => none
        | some content =>
          some (rest, delete_file_and_remove_command fs item, [content], [])
    else
      match output_scan job_id fs rest with
      | none => none
      | some (q, f, s, m) => some (item :: q, f, s, m)

/-- Translation of `print_output_and_remove` (background.c): apply the scan
to the global state. -/
def print_output_and_remove (job_id : Int) (st : BGState) : Option BGState :=
  match output_scan job_id st.fs st.queue with
  | none => none
  | some (q, f, s, m) =>
    some { st with queue := q, fs := f, streamed := st.streamed ++ s, errs := st.errs ++ m }

/-- The scan of `attempt_cancel_command` (background.c).  The C loop does not
break after a match: a finished job (also the `is_complete && pid == 0` case
falls into the last branch) reports an error or sends `SIGKILL`, a queued job
is deleted together with its capture file.  (After the in-place `list_del`
of the C the loop's `curr = curr->next` revisits the freed node; the model
keeps the intended single-pass semantics of the traversal.) -/
def cancel_scan (job_id : Int) (fs : FS) : List QItem → List QItem × FS × List Msg
  | [] => ([], fs, [])
  | item :: rest =>
    if job_id = item.job_id then
      if item.is_complete = true ∧ item.pid ≠ 0 then
        let (q, f, m) := cancel_scan job_id fs rest
        (item :: q, f, Msg.cancelDone item.job_id :: m)
      else if item.is_complete = false ∧ item.pid ≠ 0 then
        let (q, f, m) := cancel_scan job_id fs rest
        (item :: q, f, Msg.cancelKill item.job_id item.pid :: m)
      else
        cancel_scan job_id (delete_file_and_remove_command fs item) rest
    else
      let (q, f, m) := cancel_scan job_id fs rest
      (item :: q, f, m)

/-- Translation of `attempt_cancel_command` (background.c): apply the scan to
the global state (the `kill` system call itself only affects the child). -/
def attempt_cancel_command (job_id : Int) (st : BGState) : BGState :=
  match cancel_scan job_id st.fs st.queue with
  | (q, f, m) => { st with queue := q, fs := f, errs := st.errs ++ m }

/-- The scan of `sig_handler` (background.c).  `reaped pid` tells whether
`waitpid(pid, NULL, WNOHANG)` returns a positive value for the stored pid.
On a reaped item `job_running` is cleared; under `SIGCHLD` the item is marked
complete, under `SIGKILL` (dead code given the registration) it is removed
with its file and a confirmation is printed.  Returns the new queue, file
system, `LOG_MSG` output and the `run_next` flag. -/
def sig_scan (signal : Int) (reaped : Int → Bool) (fs : FS) :
    List QItem → List QItem × FS × List Msg × Bool
  | [] => ([], fs, [], false)
  | item :: rest =>
    if reaped item.pid then
      if signal = SIGKILL then
        let (q, f, m, _) := sig_scan signal reaped (delete_file_and_remove_command fs item) rest
        (q, f, Msg.cancelOk item.job_id :: m, true)
      else
        let item2 := if signal = SIGCHLD then { item with is_complete := true } else item
        let (q, f, m, _) := sig_scan signal reaped fs rest
        (item2 :: q, f, m, true)
    else
      let (q, f, m, found) := sig_scan signal reaped fs rest
      (item :: q, f, m, found)

/-- Translation of `sig_handler` (background.c): scan the queue for reaped
children, then start the next job when one was found.  `newpid` is the pid
the nested `fork` would return. -/
def sig_handler (signal : Int) (reaped : Int → Bool) (newpid : Int) (st : BGState) : BGState :=
  match sig_scan signal reaped st.fs st.queue with
  | (q, f, m, run_next) =>
    let jr := if run_next then false else st.job_running
    let st2 := { st with queue := q, fs := f, msgs := st.msgs ++ m, job_running := jr }
    if run_next then dequeue_and_execute newpid st2 else st2

/-- The operations that touch the queue, with the outside world's
contributions (fork results, `waitpid` answers) as parameters. -/
inductive QOp where
  | enqueue (outfile : List Char) (newpid : Int)
  | dequeue (newpid : Int)
  | output (job_id : Int)
  | cancel (job_id : Int)
  | sig (signal : Int) (reaped : Int → Bool) (newpid : Int)

/-- One queue operation applied to the global state.  An `output` whose
capture file is missing crashes the shell (state stops evolving), so the
pre-state is kept for it. -/
def bg_step (st : BGState) : QOp → BGState
  | QOp.enqueue outfile newpid => add_to_queue outfile newpid st
  | QOp.dequeue newpid => dequeue_and_execute newpid st
  | QOp.output job_id => (print_output_and_remove job_id st).getD st
  | QOp.cancel job_id => attempt_cancel_command job_id st
  | QOp.sig signal reaped newpid => sig_handler signal reaped newpid st

/-- A whole shell lifetime of queue operations starting from the initial
globals and an arbitrary initial file system. -/
def bg_run (fs : FS) (ops : List QOp) : BGState :=
  ops.foldl bg_step (bg_init fs)

/-- Whether a queue operation is an enqueue. -/
def is_enqueue : QOp → Bool
  | QOp.enqueue _ _ => true
  | _ => false

/-- Number of `enqueue` operations in a lifetime. -/
def count_enqueues (ops : List QOp) : Nat :=
  ops.countP is_enqueue

/-- The queue portion of the C8 invariant: job ids strictly increase along the
queue (hence are unique) and are all below the `job_count` counter. -/
def jobs_invariant (st : BGState) : Prop :=
  List.Pairwise (fun a b => a < b) (st.queue.map QItem.job_id) ∧
  ∀ i ∈ st.queue.map QItem.job_id, i < st.job_count

/-- The ghost bookkeeping: `assigned` (the ids handed out so far, in order)
is exactly `0, 1, ..., job_count - 1`. -/
def bg_ghost (st : BGState) : Prop :=
  0 ≤ st.job_count ∧ st.assigned = (List.range st.job_count.toNat).map Int.ofNat

end BG

end Sush

/-!
## Theorems

The development of the claims: characterizations of the helpers first, then
one theorem per claim, with its witness or counterexample instances.
-/

namespace Sush
namespace Parse

theorem trailing_cons (t : Tok) (l : List Tok) (h : l ≠ []) :
    trailing_redirection (t :: l) = trailing_redirection l := by
  cases l with
  | nil => exact absurd rfl h
  | cons a as =>
    unfold trailing_redirection
    rw [List.getLast?_cons_cons]

theorem itrv_eq_none_iff :
    (toks : List Tok) → (is_tokens_redirection_valid toks = none ↔ trailing_redirection toks = true)
  | [] => by simp [is_tokens_redirection_valid, trailing_redirection]
  | [t] => by
    by_cases h : is_redirection_text t.token_text = true <;>
      simp [is_tokens_redirection_valid, trailing_redirection, h]
  | t :: f :: rest => by
    rw [trailing_cons t (f :: rest) (by simp)]
    by_cases ht : is_redirection_text t.token_text = true
    · by_cases hf : is_redirection_text f.token_text = true
      · rw [show is_tokens_redirection_valid (t :: f :: rest) =
              is_tokens_redirection_valid (f :: rest) by
            simp [is_tokens_redirection_valid, ht, hf]]
        exact itrv_eq_none_iff (f :: rest)
      · have ih2 := itrv_eq_none_iff rest
        cases rest with
        | nil =>
          simp [is_tokens_redirection_valid, ht, hf, trailing_redirection]
        | cons a as =>
          rw [trailing_cons f (a :: as) (by simp)]
          cases hrec : is_tokens_redirection_valid (a :: as) with
          | none =>
            simp only [hrec, true_iff] at ih2
            simp [is_tokens_redirection_valid, ht, hf, hrec, ih2]
          | some l2 =>
            simp only [hrec] at ih2
            simp [is_tokens_redirection_valid, ht, hf, hrec, ← ih2]
    · have ih1 := itrv_eq_none_iff (f :: rest)
      cases hrec : is_tokens_redirection_valid (f :: rest) with
      | none =>
        simp only [hrec, true_iff] at ih1
        simp [is_tokens_redirection_valid, ht, hrec, ih1]
      | some l2 =>
        simp only [hrec] at ih1
        simp [is_tokens_redirection_valid, ht, hrec, ← ih1]

end Parse
end Sush

namespace Sush
namespace Parse

theorem filterMap_cons_of_some {a b : Type} (g : a → Option b) (x : a) (l : List a) (y : b)
    (h : g x = some y) : List.filterMap g (x :: l) = y :: List.filterMap g l := by
  rw [List.filterMap_cons_some h]

theorem filterMap_cons_of_none {a b : Type} (g : a → Option b) (x : a) (l : List a)
    (h : g x = none) : List.filterMap g (x :: l) = List.filterMap g l := by
  rw [List.filterMap_cons_none h]

theorem dir_of_type_retag (s : List Char) (f : Tok) (h : is_redirection_text s = true) :
    dir_of_type (retag_fname s f).token_type = some (dir_of_text s) := by
  unfold is_redirection_text at h
  simp only [Bool.or_eq_true, decide_eq_true_eq] at h
  rcases h with h | h | h <;> subst h <;> rfl

theorem adjacent_cons_nonop (f : Tok) (rest : List Tok)
    (hf : ¬ is_redirection_text f.token_text = true) :
    adjacent_directions (f :: rest) = adjacent_directions rest := by
  cases rest with
  | nil => rfl
  | cons a as => simp [adjacent_directions, hf]

theorem itrv_dirs :
    (toks : List Tok) → (∀ t ∈ toks, t.token_type = TOKEN_NORMAL) → (l : List Tok) →
    is_tokens_redirection_valid toks = some l →
    l.filterMap (fun t => dir_of_type t.token_type) = adjacent_directions toks
  | [], _, l, hl => by
    simp [is_tokens_redirection_valid] at hl
    subst hl
    rfl
  | [t], h, l, hl => by
    by_cases ht : is_redirection_text t.token_text = true <;>
      simp [is_tokens_redirection_valid, ht] at hl
    have hT := h t (by simp)
    subst hl
    simp [hT, dir_of_type, adjacent_directions]
  | t :: f :: rest, h, l, hl => by
    have hmem : ∀ x ∈ f :: rest, x.token_type = TOKEN_NORMAL := by
      intro x hx
      exact h x (List.mem_cons_of_mem t hx)
    have hmem2 : ∀ x ∈ rest, x.token_type = TOKEN_NORMAL := by
      intro x hx
      exact hmem x (List.mem_cons_of_mem f hx)
    by_cases ht : is_redirection_text t.token_text = true
    · by_cases hf : is_redirection_text f.token_text = true
      · simp only [is_tokens_redirection_valid, ht, if_true, hf] at hl
        rw [itrv_dirs (f :: rest) hmem l hl]
        simp [adjacent_directions, ht, hf]
      · cases hrec : is_tokens_redirection_valid rest with
        | none => simp [is_tokens_redirection_valid, ht, hf, hrec] at hl
        | some l2 =>
          simp [is_tokens_redirection_valid, ht, hf, hrec] at hl
          subst hl
          rw [filterMap_cons_of_some (fun tk : Tok => dir_of_type tk.token_type) _ _ _ (dir_of_type_retag t.token_text f ht)]
          rw [itrv_dirs rest hmem2 l2 hrec]
          simp [adjacent_directions, ht, hf, adjacent_cons_nonop f rest (by simp [hf])]
    · cases hrec : is_tokens_redirection_valid (f :: rest) with
      | none => simp [is_tokens_redirection_valid, ht, hrec] at hl
      | some l2 =>
        simp [is_tokens_redirection_valid, ht, hrec] at hl
        subst hl
        have hT := h t (by simp)
        rw [filterMap_cons_of_none (fun tk : Tok => dir_of_type tk.token_type) _ _ (by show dir_of_type t.token_type = none; rw [hT]; rfl)]
        rw [itrv_dirs (f :: rest) hmem l2 hrec]
        simp [adjacent_directions, ht]

end Parse
end Sush

namespace Sush
namespace Parse

theorem parse_redirection_token_types (cmdline : List Char) (sm : SM) (c : Char) :
    ∀ t ∈ (parse_redirection_token cmdline sm c).1, t.token_type = TOKEN_NORMAL := by
  intro t ht
  unfold parse_redirection_token at ht
  by_cases h1 : sm.sub_len ≠ 0 <;>
    simp only [h1, if_true, if_false, ite_true, ite_false] at ht <;>
    split at ht <;>
    (try split at ht) <;>
    simp_all <;>
    rcases ht with rfl | rfl <;>
    rfl

end Parse
end Sush

namespace Sush
namespace Parse

theorem do_char_types (cmdline : List Char) (sm : SM) (c : Char) :
    ∀ t ∈ (do_char cmdline sm c).1, t.token_type = TOKEN_NORMAL := by
  intro t ht
  unfold do_char at ht
  split at ht <;> simp_all

theorem do_quote_types (cmdline : List Char) (sm : SM) (c : Char) :
    ∀ t ∈ (do_quote cmdline sm c).1, t.token_type = TOKEN_NORMAL := by
  intro t ht
  unfold do_quote at ht
  split at ht <;> simp_all

theorem tokenizer_final_types (cmdline : List Char) (sm : SM) (acc : List Tok)
    (hacc : ∀ t ∈ acc, t.token_type = TOKEN_NORMAL) :
    ∀ t ∈ tokenizer_final cmdline sm acc, t.token_type = TOKEN_NORMAL := by
  intro t ht
  unfold tokenizer_final at ht
  split at ht
  · rw [List.mem_append] at ht
    rcases ht with ht | ht
    · exact hacc t ht
    · simp at ht
      simp [ht]
  · exact hacc t ht

theorem tokenizer_loop_types (cmdline : List Char) :
    (fuel : Nat) → (sm : SM) → (acc : List Tok) →
    (∀ t ∈ acc, t.token_type = TOKEN_NORMAL) →
    ∀ t ∈ tokenizer_loop cmdline fuel sm acc, t.token_type = TOKEN_NORMAL
  | 0, sm, acc, hacc => tokenizer_final_types cmdline sm acc hacc
  | fuel + 1, sm, acc, hacc => by
    unfold tokenizer_loop
    split
    · apply tokenizer_loop_types cmdline fuel
      intro t ht
      rw [List.mem_append] at ht
      rcases ht with ht | ht
      · exact hacc t ht
      · revert t ht
        split
        · exact parse_redirection_token_types cmdline sm _
        · split
          · exact do_char_types cmdline sm _
          · exact do_quote_types cmdline sm _
          · intro t ht
            simp at ht
    · exact tokenizer_final_types cmdline sm acc hacc

theorem tokenizer_types (cmdline : List Char) :
    ∀ t ∈ tokenizer cmdline, t.token_type = TOKEN_NORMAL := by
  apply tokenizer_loop_types
  intro t ht
  simp at ht

end Parse
end Sush

namespace Sush
namespace Parse

theorem scr_none_iff :
    (toks : List Tok) → (command : Command) →
    (set_command_redirections command toks = none ↔
      (command.file_out ≠ REDIRECT_NONE ∧ Dir.dout ∈ fname_dirs toks)
      ∨ (command.file_in ≠ REDIRECT_NONE ∧ Dir.din ∈ fname_dirs toks)
      ∨ 2 ≤ (fname_dirs toks).count Dir.dout
      ∨ 2 ≤ (fname_dirs toks).count Dir.din)
  | [], command => by
    simp [set_command_redirections, fname_dirs]
  | token :: rest, command => by
    have ih := scr_none_iff rest
    cases htype : token.token_type
    case TOKEN_NORMAL =>
      have hd : fname_dirs (token :: rest) = fname_dirs rest :=
        filterMap_cons_of_none _ _ _ (by rw [htype]; rfl)
      rw [hd]
      rw [show set_command_redirections command (token :: rest) =
            (match set_command_redirections command rest with
             | none => none
             | some (c2, rem) => some (c2, token :: rem)) by
          simp [set_command_redirections, htype, is_redirection_token]]
      cases hrec : set_command_redirections command rest with
      | none => simpa using (ih command).mp hrec
      | some p =>
        have := (ih command).not.mp (by simp [hrec])
        simpa using this
    case TOKEN_REDIR =>
      have hd : fname_dirs (token :: rest) = fname_dirs rest :=
        filterMap_cons_of_none _ _ _ (by rw [htype]; rfl)
      rw [hd]
      rw [show set_command_redirections command (token :: rest) =
            (match set_command_redirections command rest with
             | none => none
             | some (c2, rem) => some (c2, token :: rem)) by
          simp [set_command_redirections, htype, is_redirection_token]]
      cases hrec : set_command_redirections command rest with
      | none => simpa using (ih command).mp hrec
      | some p =>
        have := (ih command).not.mp (by simp [hrec])
        simpa using this
    case TOKEN_FNAME_OUT_OVERWRITE =>
      have hd : fname_dirs (token :: rest) = Dir.dout :: fname_dirs rest :=
        filterMap_cons_of_some _ _ _ _ (by rw [htype]; rfl)
      rw [hd]
      by_cases hout : command.file_out = REDIRECT_NONE
      · rw [show set_command_redirections command (token :: rest) =
              set_command_redirections { command with outfile := some token.token_text, file_out := FILE_OUT_OVERWRITE } rest by
            simp [set_command_redirections, htype, is_redirection_token, set_redirection_out, hout]]
        rw [ih]
        have hcount : Dir.dout ∈ fname_dirs rest ↔ 1 ≤ (fname_dirs rest).count Dir.dout :=
          List.count_pos_iff.symm
        have himp : 2 ≤ (fname_dirs rest).count Dir.dout → 1 ≤ (fname_dirs rest).count Dir.dout := by
          omega
        have h21 : ∀ c : Nat, 2 ≤ c + 1 ↔ 1 ≤ c := by intro c; omega
        simp only [List.count_cons, List.mem_cons]
        norm_num [h21, hout]
        rw [hcount]
        tauto
      · rw [show set_command_redirections command (token :: rest) = none by
            simp [set_command_redirections, htype, is_redirection_token, set_redirection_out, hout]]
        simp [hout]
    case TOKEN_FNAME_OUT_APPEND =>
      have hd : fname_dirs (token :: rest) = Dir.dout :: fname_dirs rest :=
        filterMap_cons_of_some _ _ _ _ (by rw [htype]; rfl)
      rw [hd]
      by_cases hout : command.file_out = REDIRECT_NONE
      · rw [show set_command_redirections command (token :: rest) =
              set_command_redirections { command with outfile := some token.token_text, file_out := FILE_OUT_APPEND } rest by
            simp [set_command_redirections, htype, is_redirection_token, set_redirection_out, hout]]
        rw [ih]
        have hcount : Dir.dout ∈ fname_dirs rest ↔ 1 ≤ (fname_dirs rest).count Dir.dout :=
          List.count_pos_iff.symm
        have himp : 2 ≤ (fname_dirs rest).count Dir.dout → 1 ≤ (fname_dirs rest).count Dir.dout := by
          omega
        have h21 : ∀ c : Nat, 2 ≤ c + 1 ↔ 1 ≤ c := by intro c; omega
        simp only [List.count_cons, List.mem_cons]
        norm_num [h21, hout]
        rw [hcount]
        tauto
      · rw [show set_command_redirections command (token :: rest) = none by
            simp [set_command_redirections, htype, is_redirection_token, set_redirection_out, hout]]
        simp [hout]
    case TOKEN_FNAME_IN =>
      have hd : fname_dirs (token :: rest) = Dir.din :: fname_dirs rest :=
        filterMap_cons_of_some _ _ _ _ (by rw [htype]; rfl)
      rw [hd]
      by_cases hin : command.file_in = REDIRECT_NONE
      · rw [show set_command_redirections command (token :: rest) =
              set_command_redirections { command with infile := some token.token_text, file_in := FILE_IN } rest by
            simp [set_command_redirections, htype, is_redirection_token, set_redirection_in, hin]]
        rw [ih]
        have hcount : Dir.din ∈ fname_dirs rest ↔ 1 ≤ (fname_dirs rest).count Dir.din :=
          List.count_pos_iff.symm
        have himp : 2 ≤ (fname_dirs rest).count Dir.din → 1 ≤ (fname_dirs rest).count Dir.din := by
          omega
        have h21 : ∀ c : Nat, 2 ≤ c + 1 ↔ 1 ≤ c := by intro c; omega
        simp only [List.count_cons, List.mem_cons]
        norm_num [h21, hin]
        rw [hcount]
        tauto
      · rw [show set_command_redirections command (token :: rest) = none by
            simp [set_command_redirections, htype, is_redirection_token, set_redirection_in, hin]]
        simp [hin]

end Parse
end Sush

namespace Sush
namespace Parse

theorem scr_some_props :
    (toks : List Tok) → (command c2 : Command) → (rem : List Tok) →
    set_command_redirections command toks = some (c2, rem) →
    c2.pipe_in = command.pipe_in ∧ c2.pipe_out = command.pipe_out ∧
    (Dir.din ∈ fname_dirs toks → c2.file_in = FILE_IN ∧ c2.infile ≠ none) ∧
    (Dir.din ∉ fname_dirs toks → c2.file_in = command.file_in ∧ c2.infile = command.infile)
  | [], command, c2, rem, h => by
    simp [set_command_redirections] at h
    obtain ⟨h1, h2⟩ := h
    subst h1
    simp [fname_dirs]
  | token :: rest, command, c2, rem, h => by
    cases htype : token.token_type
    case TOKEN_NORMAL =>
      have hd : fname_dirs (token :: rest) = fname_dirs rest :=
        filterMap_cons_of_none _ _ _ (by rw [htype]; rfl)
      rw [hd]
      rw [show set_command_redirections command (token :: rest) =
            (match set_command_redirections command rest with
             | none => none
             | some (c3, rem2) => some (c3, token :: rem2)) by
          simp [set_command_redirections, htype, is_redirection_token]] at h
      cases hrec : set_command_redirections command rest with
      | none => rw [hrec] at h; simp at h
      | some p =>
        rw [hrec] at h
        obtain ⟨p1, p2⟩ := p
        simp at h
        obtain ⟨h1, h2⟩ := h
        subst h1
        exact scr_some_props rest command _ p2 hrec
    case TOKEN_REDIR =>
      have hd : fname_dirs (token :: rest) = fname_dirs rest :=
        filterMap_cons_of_none _ _ _ (by rw [htype]; rfl)
      rw [hd]
      rw [show set_command_redirections command (token :: rest) =
            (match set_command_redirections command rest with
             | none => none
             | some (c3, rem2) => some (c3, token :: rem2)) by
          simp [set_command_redirections, htype, is_redirection_token]] at h
      cases hrec : set_command_redirections command rest with
      | none => rw [hrec] at h; simp at h
      | some p =>
        rw [hrec] at h
        obtain ⟨p1, p2⟩ := p
        simp at h
        obtain ⟨h1, h2⟩ := h
        subst h1
        exact scr_some_props rest command _ p2 hrec
    case TOKEN_FNAME_OUT_OVERWRITE =>
      have hd : fname_dirs (token :: rest) = Dir.dout :: fname_dirs rest :=
        filterMap_cons_of_some _ _ _ _ (by rw [htype]; rfl)
      rw [hd]
      by_cases hout : command.file_out = REDIRECT_NONE
      · rw [show set_command_redirections command (token :: rest) =
              set_command_redirections { command with outfile := some token.token_text, file_out := FILE_OUT_OVERWRITE } rest by
            simp [set_command_redirections, htype, is_redirection_token, set_redirection_out, hout]] at h
        have ih := scr_some_props rest _ c2 rem h
        simpa using ih
      · rw [show set_command_redirections command (token :: rest) = none by
            simp [set_command_redirections, htype, is_redirection_token, set_redirection_out, hout]] at h
        simp at h
    case TOKEN_FNAME_OUT_APPEND =>
      have hd : fname_dirs (token :: rest) = Dir.dout :: fname_dirs rest :=
        filterMap_cons_of_some _ _ _ _ (by rw [htype]; rfl)
      rw [hd]
      by_cases hout : command.file_out = REDIRECT_NONE
      · rw [show set_command_redirections command (token :: rest) =
              set_command_redirections { command with outfile := some token.token_text, file_out := FILE_OUT_APPEND } rest by
            simp [set_command_redirections, htype, is_redirection_token, set_redirection_out, hout]] at h
        have ih := scr_some_props rest _ c2 rem h
        simpa using ih
      · rw [show set_command_redirections command (token :: rest) = none by
            simp [set_command_redirections, htype, is_redirection_token, set_redirection_out, hout]] at h
        simp at h
    case TOKEN_FNAME_IN =>
      have hd : fname_dirs (token :: rest) = Dir.din :: fname_dirs rest :=
        filterMap_cons_of_some _ _ _ _ (by rw [htype]; rfl)
      rw [hd]
      by_cases hin : command.file_in = REDIRECT_NONE
      · rw [show set_command_redirections command (token :: rest) =
              set_command_redirections { command with infile := some token.token_text, file_in := FILE_IN } rest by
            simp [set_command_redirections, htype, is_redirection_token, set_redirection_in, hin]] at h
        have ih := scr_some_props rest _ c2 rem h
        refine ⟨by simpa using ih.1, by simpa using ih.2.1, fun _ => ?_, fun hnot => ?_⟩
        · by_cases hmem : Dir.din ∈ fname_dirs rest
          · exact ih.2.2.1 hmem
          · have := ih.2.2.2 hmem
            simp at this
            exact ⟨this.1, by simp [this.2]⟩
        · exact absurd (by simp : Dir.din ∈ Dir.din :: fname_dirs rest) hnot
      · rw [show set_command_redirections command (token :: rest) = none by
            simp [set_command_redirections, htype, is_redirection_token, set_redirection_in, hin]] at h
        simp at h

end Parse
end Sush

namespace Sush
namespace Parse

theorem is_valid_command_neg_iff (cmd : Command)
    (hinf : cmd.file_in = FILE_IN → cmd.infile ≠ none) :
    (is_valid_command cmd < 0 ↔ (cmd.pipe_in = true ∧ cmd.file_in = FILE_IN)) := by
  unfold is_valid_command is_valid_stdin
  by_cases h1 : cmd.pipe_in = true ∧ cmd.file_in = FILE_IN
  · simp only [h1.1, h1.2]
    norm_num [ERROR]
  · by_cases h2 : cmd.file_in = FILE_IN
    · have h3 : ¬ cmd.pipe_in = true := fun hp => h1 ⟨hp, h2⟩
      simp only [h2, h3]
      norm_num [ERROR, SUCCESS]
      simp [hinf h2]
      split <;> norm_num
    · simp only [h2]
      norm_num [ERROR, SUCCESS, h2]
      by_cases hb : is_valid_stdout cmd.pipe_out cmd.file_out cmd.outfile = true <;>
        simp [hb]

end Parse
end Sush

namespace Sush
namespace Parse

theorem parse_segment_eq_none_iff (seg : List Char) (i n : Nat) :
    (parse_segment seg i n = none ↔ seg_malformed (tokenizer seg) i) := by
  have hN := tokenizer_types seg
  cases hr : is_tokens_redirection_valid (tokenizer seg) with
  | none =>
    have ht : trailing_redirection (tokenizer seg) = true := (itrv_eq_none_iff _).mp hr
    have hps : parse_segment seg i n = none := by
      unfold parse_segment
      simp only [hr]
    rw [hps]
    simp [seg_malformed, ht]
  | some l =>
    have htrail : ¬ trailing_redirection (tokenizer seg) = true := by
      intro hc
      rw [← itrv_eq_none_iff, hr] at hc
      simp at hc
    have hdirs : fname_dirs l = adjacent_directions (tokenizer seg) :=
      itrv_dirs _ hN l hr
    cases hscr : set_command_redirections (init_command i n) l with
    | none =>
      have hfail := (scr_none_iff l (init_command i n)).mp hscr
      rw [hdirs] at hfail
      simp only [init_command] at hfail
      norm_num at hfail
      have hps : parse_segment seg i n = none := by
        unfold parse_segment tokens_to_command
        simp only [hr, hscr]
      rw [hps]
      simp only [seg_malformed]
      tauto
    | some p =>
      obtain ⟨c2, rem⟩ := p
      have hps : parse_segment seg i n =
          (if is_valid_command (set_command_tokens c2 rem) < 0 then none
           else some (set_command_tokens c2 rem)) := by
        unfold parse_segment tokens_to_command
        simp only [hr, hscr]
      rw [hps]
      have props := scr_some_props l (init_command i n) c2 rem hscr
      have hnofail := (scr_none_iff l (init_command i n)).not.mp (by simp [hscr])
      rw [hdirs] at hnofail
      simp only [init_command] at hnofail props
      norm_num at hnofail
      have hpipe : c2.pipe_in = decide (i ≠ 0) := by
        rw [props.1]
      have hproj1 : (set_command_tokens c2 rem).file_in = c2.file_in := rfl
      have hproj2 : (set_command_tokens c2 rem).infile = c2.infile := rfl
      have hproj3 : (set_command_tokens c2 rem).pipe_in = c2.pipe_in := rfl
      have hinfile : (set_command_tokens c2 rem).file_in = FILE_IN →
          (set_command_tokens c2 rem).infile ≠ none := by
        rw [hproj1, hproj2]
        intro hfi
        by_cases hmem : Dir.din ∈ fname_dirs l
        · exact (props.2.2.1 hmem).2
        · have h2 := props.2.2.2 hmem
          rw [h2.1] at hfi
          simp at hfi
      have hvalid := is_valid_command_neg_iff (set_command_tokens c2 rem) hinfile
      have hfin : c2.file_in = FILE_IN ↔ Dir.din ∈ adjacent_directions (tokenizer seg) := by
        rw [← hdirs]
        constructor
        · intro hfi
          by_contra hmem
          have h2 := props.2.2.2 hmem
          rw [h2.1] at hfi
          simp at hfi
        · intro hmem
          exact (props.2.2.1 hmem).1
      by_cases hv : is_valid_command (set_command_tokens c2 rem) < 0
      · simp only [hv, if_true, ite_true]
        have hand := hvalid.mp hv
        rw [hproj3, hpipe] at hand
        rw [hproj1] at hand
        have hi : i ≠ 0 := by
          have := hand.1
          simpa using this
        have hmem := hfin.mp hand.2
        simp only [seg_malformed]
        tauto
      · simp only [hv, if_false, ite_false]
        have hnone : ¬ (some (set_command_tokens c2 rem) = none) := by simp
        simp only [hnone, false_iff]
        intro hmal
        rcases hmal with h | h | h | h
        · exact htrail h
        · omega
        · omega
        · apply hv
          rw [hvalid, hproj3, hpipe, hproj1]
          refine ⟨by simpa using h.1, hfin.mpr h.2⟩

end Parse
end Sush

namespace Sush
namespace Parse

theorem parse_command_go_eq_none_iff :
    (segs : List (List Char)) → (i n : Nat) →
    (parse_command_go segs i n = none ↔
      ∃ j, ∃ h : j < segs.length, seg_malformed (tokenizer (segs.get ⟨j, h⟩)) (i + j))
  | [], i, n => by simp [parse_command_go]
  | seg :: rest, i, n => by
    have ih := parse_command_go_eq_none_iff rest (i + 1) n
    cases hs : parse_segment seg i n with
    | none =>
      have hm : seg_malformed (tokenizer seg) i := (parse_segment_eq_none_iff seg i n).mp hs
      have hps : parse_command_go (seg :: rest) i n = none := by
        unfold parse_command_go
        simp only [hs]
      rw [hps]
      simp only [true_iff]
      exact ⟨0, by simp, by simpa using hm⟩
    | some cmd =>
      have hnm : ¬ seg_malformed (tokenizer seg) i := by
        rw [← parse_segment_eq_none_iff seg i n, hs]
        simp
      cases hrec : parse_command_go rest (i + 1) n with
      | none =>
        obtain ⟨j, hj, hmj⟩ := ih.mp hrec
        have hps : parse_command_go (seg :: rest) i n = none := by
          unfold parse_command_go
          simp only [hs, hrec]
        rw [hps]
        simp only [true_iff]
        refine ⟨j + 1, by simpa using hj, ?_⟩
        have harith : i + (j + 1) = i + 1 + j := by omega
        rw [harith]
        exact hmj
      | some cmds =>
        have hps : parse_command_go (seg :: rest) i n = some (cmd :: cmds) := by
          unfold parse_command_go
          simp only [hs, hrec]
        rw [hps]
        constructor
        · intro h
          simp at h
        · rintro ⟨j, hj, hmj⟩
          exfalso
          cases j with
          | zero => exact hnm (by simpa using hmj)
          | succ k =>
            have hk : k < rest.length := by simpa using hj
            have hex : ∃ j, ∃ h : j < rest.length,
                seg_malformed (tokenizer (rest.get ⟨j, h⟩)) (i + 1 + j) := by
              refine ⟨k, hk, ?_⟩
              have harith : i + 1 + k = i + (k + 1) := by omega
              rw [harith]
              exact hmj
            rw [← ih, hrec] at hex
            simp at hex

end Parse
end Sush

namespace Sush
namespace Parse

/-- Claim C1 (amended).  `parse_command` rejects a command line if and only if
some segment is malformed in the sense actually implemented by parser.c:
its token list ends in a redirection operator, or — after the retagging
cascade of `is_tokens_redirection_valid` — a filename is offered for an
already-set channel or two filenames go in the same direction, or the
segment pipes in while also redirecting stdin from a file.  The spec's
conditions differ: empty argv is not rejected (see `c1_counterexample`),
the `pipe_in`/file-stdin conflict is an extra rejection, and the dead
stdout check (`is_valid_stdout` returns `ERROR` through `bool`) never
rejects stdout conflicts. -/
theorem c1_parse_command_reject_iff (cmdline : List Char) :
    (parse_command cmdline = none ↔
      ∃ j, ∃ h : j < (segments cmdline).length,
        seg_malformed (tokenizer ((segments cmdline).get ⟨j, h⟩)) j) := by
  unfold parse_command segments
  have h := parse_command_go_eq_none_iff
    ((split_cmdline cmdline).take (get_num_subcommands cmdline)) 0 (get_num_subcommands cmdline)
  simpa using h

/-- Claim C1, counterexample to the spec's wording: the command line
consisting of a single space (empty argv in its only segment) is accepted
by `parse_command`, while the spec's criterion (`claimed_segment_fails`)
demands rejection. -/
theorem c1_counterexample :
    ¬ ((parse_command (" \n".toList) = none) ↔
      ∃ seg ∈ segments (" \n".toList), claimed_segment_fails (tokenizer seg)) := by
  decide

end Parse
end Sush

namespace Sush
namespace Parse

theorem sub_string_one (cmdline : List Char) (pos : Nat) (c : Char)
    (h : cmdline.get? pos = some c) : sub_string cmdline pos 1 = [c] := by
  unfold sub_string
  have hlt : pos < cmdline.length := by
    by_contra hge
    rw [List.get?_eq_none.mpr (by omega)] at h
    simp at h
  rw [List.drop_eq_getElem_cons hlt]
  have hc : cmdline[pos] = c := by
    rw [List.get?_eq_getElem? ] at h
    simpa [List.getElem?_eq_getElem hlt] using h
  simp [hc]

theorem sub_string_two (cmdline : List Char) (pos : Nat) (c c2 : Char)
    (h : cmdline.get? pos = some c) (h2 : cmdline.get? (pos + 1) = some c2) :
    sub_string cmdline pos 2 = [c, c2] := by
  unfold sub_string
  have hlt : pos < cmdline.length := by
    by_contra hge
    rw [List.get?_eq_none.mpr (by omega)] at h
    simp at h
  have hlt2 : pos + 1 < cmdline.length := by
    by_contra hge
    rw [List.get?_eq_none.mpr (by omega)] at h2
    simp at h2
  rw [List.drop_eq_getElem_cons hlt]
  rw [List.drop_eq_getElem_cons hlt2]
  have hc : cmdline[pos] = c := by
    rw [List.get?_eq_getElem?] at h
    simpa [List.getElem?_eq_getElem hlt] using h
  have hc2 : cmdline[pos + 1] = c2 := by
    rw [List.get?_eq_getElem?] at h2
    simpa [List.getElem?_eq_getElem hlt2] using h2
  simp [hc, hc2]

end Parse
end Sush

namespace Sush
namespace Parse

/-- Claim C5 (confirmed).  When the tokenizer meets `<` or `>` outside a
quote, any in-progress substring is emitted first; `>` followed by `>`
emits a single `">>"` token and advances the cursor one extra step,
`>` otherwise emits `">"`, and `<` emits `"<"`.  In particular
`cmd>file` tokenizes to `cmd`, `>`, `file`. -/
theorem c5_redirection_tokenization :
    (∀ (cmdline : List Char) (sm : SM) (c : Char),
      sm.state ≠ QUOTE →
      cmdline.get? sm.position = some c →
      (c = '<' ∨ c = '>') →
      (parse_redirection_token cmdline sm c).1 =
        (if sm.sub_len ≠ 0 then
           [⟨sub_string cmdline sm.sub_start sm.sub_len, TOKEN_NORMAL⟩]
         else [])
        ++ [⟨(if c = '>' ∧ cmdline.get? (sm.position + 1) = some '>' then ">>".toList
              else if c = '>' then ">".toList
              else "<".toList), TOKEN_NORMAL⟩] ∧
      (parse_redirection_token cmdline sm c).2.position =
        (if c = '>' ∧ cmdline.get? (sm.position + 1) = some '>' then sm.position + 1
         else sm.position))
    ∧ (tokenizer ("cmd>file".toList)).map Tok.token_text =
        ["cmd".toList, ">".toList, "file".toList] := by
  constructor
  · intro cmdline sm c hq hget hc
    rcases hc with hc | hc <;> subst hc
    · by_cases hlen : sm.sub_len = 0 <;>
        simp [parse_redirection_token, hlen, add_token_node,
          sub_string_one cmdline sm.position '<' hget]
    · by_cases hnext : cmdline.get? (sm.position + 1) = some '>'
      · have hsub := sub_string_two cmdline sm.position '>' '>' hget hnext
        rw [List.get?_eq_getElem?] at hnext
        by_cases hlen : sm.sub_len = 0 <;>
          simp [parse_redirection_token, hlen, hnext, add_token_node, hsub]
      · have hsub := sub_string_one cmdline sm.position '>' hget
        rw [List.get?_eq_getElem?] at hnext
        by_cases hlen : sm.sub_len = 0 <;>
          simp [parse_redirection_token, hlen, hnext, add_token_node, hsub]
  · decide

end Parse
end Sush

namespace Sush
namespace Env

theorem get_set_self :
    (environment : Environment) → (name value : List Char) →
    environ_get_var (environ_set_var environment name value) name = some ⟨name, value⟩ := by
  intro environment name value
  unfold environ_set_var
  by_cases hex : environ_var_exist environment name = true
  · simp only [hex, if_true]
    induction environment with
    | nil => simp [environ_var_exist] at hex
    | cons v rest ih =>
      by_cases hv : v.name = name
      · simp [environ_update_var, environ_get_var, hv]
      · have hex2 : environ_var_exist rest name = true := by
          simp [environ_var_exist] at hex ⊢
          rcases hex with h | h
          · exact absurd h hv
          · exact h
        simp [environ_update_var, environ_get_var, hv, List.find?_cons_of_neg]
        exact ih hex2
  · simp only [hex, if_false]
    induction environment with
    | nil => simp [environ_add_var, environ_get_var]
    | cons v rest ih =>
      have hv : ¬ v.name = name := by
        intro hc
        apply hex
        simp [environ_var_exist, hc]
      have hex2 : ¬ environ_var_exist rest name = true := by
        intro hc
        apply hex
        simp [environ_var_exist] at hc ⊢
        tauto
      simpa [environ_add_var, environ_get_var, hv] using ih hex2

theorem exist_set_self (environment : Environment) (name value : List Char) :
    environ_var_exist (environ_set_var environment name value) name = true := by
  have h := get_set_self environment name value
  unfold environ_get_var at h
  unfold environ_var_exist
  rw [List.any_eq_true]
  exact ⟨⟨name, value⟩, List.mem_of_find?_eq_some h, by simp⟩

theorem get_update_ne :
    (environment : Environment) → (name value other : List Char) → other ≠ name →
    environ_get_var (environ_update_var environment name value) other =
      environ_get_var environment other
  | [], _, _, _, _ => rfl
  | v :: rest, name, value, other, h => by
    unfold environ_update_var environ_get_var
    by_cases hv : v.name = name
    · have hno : ¬ (name = other) := fun hc => h hc.symm
      simp only [hv, if_true]
      rw [List.find?_cons_of_neg _ (by simp [hv, hno]),
        List.find?_cons_of_neg _ (by simp [hv, hno])]
    · simp only [hv, if_false]
      by_cases hvo : v.name = other
      · rw [List.find?_cons_of_pos _ (by simp [hvo]), List.find?_cons_of_pos _ (by simp [hvo])]
      · rw [List.find?_cons_of_neg _ (by simp [hvo]), List.find?_cons_of_neg _ (by simp [hvo])]
        exact get_update_ne rest name value other h

theorem get_add_ne :
    (environment : Environment) → (name value other : List Char) → other ≠ name →
    environ_get_var (environ_add_var environment name value) other =
      environ_get_var environment other
  | [], name, value, other, h => by
    unfold environ_add_var environ_get_var
    simp only [List.nil_append]
    rw [List.find?_cons_of_neg _ (by simp; exact fun hc => h hc.symm)]
  | v :: rest, name, value, other, h => by
    unfold environ_add_var environ_get_var
    simp only [List.cons_append]
    by_cases hvo : v.name = other
    · rw [List.find?_cons_of_pos _ (by simp [hvo]), List.find?_cons_of_pos _ (by simp [hvo])]
    · rw [List.find?_cons_of_neg _ (by simp [hvo]), List.find?_cons_of_neg _ (by simp [hvo])]
      exact get_add_ne rest name value other h

theorem get_set_ne (environment : Environment) (name value other : List Char)
    (h : other ≠ name) :
    environ_get_var (environ_set_var environment name value) other =
      environ_get_var environment other := by
  unfold environ_set_var
  by_cases hex : environ_var_exist environment name = true
  · simp only [hex, if_true]
    exact get_update_ne environment name value other h
  · simp only [hex, if_false]
    exact get_add_ne environment name value other h

theorem mem_update_of_ne :
    (environment : Environment) → (name value : List Char) → (x : EnvVar) →
    x ∈ environment → x.name ≠ name → x ∈ environ_update_var environment name value
  | v :: rest, name, value, x, hx, hne => by
    unfold environ_update_var
    by_cases hv : v.name = name
    · simp only [hv, if_true]
      rcases List.mem_cons.mp hx with rfl | hx2
      · exact absurd hv hne
      · exact List.mem_cons_of_mem _ hx2
    · simp only [hv, if_false]
      rcases List.mem_cons.mp hx with rfl | hx2
      · exact List.mem_cons_self _ _
      · exact List.mem_cons_of_mem _ (mem_update_of_ne rest name value x hx2 hne)

theorem mem_set_of_ne (environment : Environment) (name value : List Char)
    (x : EnvVar) (hx : x ∈ environment) (hne : x.name ≠ name) :
    x ∈ environ_set_var environment name value := by
  unfold environ_set_var
  by_cases hex : environ_var_exist environment name = true
  · simp only [hex, if_true]
    exact mem_update_of_ne environment name value x hx hne
  · simp only [hex, if_false]
    exact List.mem_append_left _ hx

end Env
end Sush

namespace Sush
namespace Env

theorem take_findIdx_eq_takeWhile (p : Char → Bool) :
    (l : List Char) → l.take (l.findIdx p) = l.takeWhile (fun c => ! p c)
  | [] => rfl
  | a :: l => by
    by_cases h : p a <;>
      simp [List.findIdx_cons, List.takeWhile_cons, h, take_findIdx_eq_takeWhile p l]

theorem drop_findIdx_succ_eq_dropWhile (p : Char → Bool) :
    (l : List Char) → l.drop (l.findIdx p + 1) = (l.dropWhile (fun c => ! p c)).drop 1
  | [] => rfl
  | a :: l => by
    by_cases h : p a <;>
      simp [List.findIdx_cons, List.dropWhile_cons, h, drop_findIdx_succ_eq_dropWhile p l]

theorem split_environ_var_eq (e : List Char) :
    split_environ_var e =
      (e.takeWhile (fun c => c ≠ '='), (e.dropWhile (fun c => c ≠ '=')).drop 1) := by
  unfold split_environ_var sub_string
  simp only [List.drop_zero]
  have hfun : (fun c : Char => decide (c ≠ '=')) = (fun c => ! decide (c = '=')) := by
    funext c
    simp [decide_not]
  rw [hfun]
  rw [← take_findIdx_eq_takeWhile (fun c => decide (c = '=')) e]
  rw [← drop_findIdx_succ_eq_dropWhile (fun c => decide (c = '=')) e]
  have hlen : (e.drop (List.findIdx (fun c => decide (c = '=')) e + 1)).length ≤ e.length := by
    rw [List.length_drop]
    omega
  rw [List.take_of_length_le hlen]

end Env
end Sush

namespace Sush
namespace Env

theorem exist_of_get_some (environment : Environment) (name : List Char) (v : EnvVar)
    (h : environ_get_var environment name = some v) :
    environ_var_exist environment name = true := by
  unfold environ_get_var at h
  unfold environ_var_exist
  rw [List.any_eq_true]
  refine ⟨v, List.mem_of_find?_eq_some h, ?_⟩
  have hp := List.find?_some h
  simpa using hp

/-- Claim C3 (amended).  `environ_init` inserts an entry for every element
of `envp`, splitting on the first `=`: the name is everything before it and
the value everything after it.  An entry without `=` is not ignored, as the
spec claims: `split_environ_var` makes its pivot `strcspn`-like, so the
whole entry becomes the name with an empty value (see
`c3_counterexample`). -/
theorem c3_environ_init_split (envp : List (List Char)) (st : Environment) (e : List Char)
    (hinit : environ_init envp = some st) (he : e ∈ envp)
    (hps1 : e.takeWhile (fun c => c ≠ '=') ≠ "PS1".toList)
    (hsush : e.takeWhile (fun c => c ≠ '=') ≠ "SUSHHOME".toList) :
    (⟨e.takeWhile (fun c => c ≠ '='), (e.dropWhile (fun c => c ≠ '=')).drop 1⟩ : EnvVar) ∈ st := by
  unfold environ_init at hinit
  cases hpwd : environ_get_var
      (environ_set_var
        (envp.map (fun e2 => (⟨(split_environ_var e2).1, (split_environ_var e2).2⟩ : EnvVar)))
        ("PS1".toList) (">".toList)) ("PWD".toList) with
  | none => simp only [hpwd] at hinit; exact absurd hinit (by simp)
  | some pwd =>
    simp only [hpwd] at hinit
    simp only [Option.some.injEq] at hinit
    subst hinit
    have hx : (⟨e.takeWhile (fun c => c ≠ '='), (e.dropWhile (fun c => c ≠ '=')).drop 1⟩ : EnvVar) ∈
        envp.map (fun e2 => (⟨(split_environ_var e2).1, (split_environ_var e2).2⟩ : EnvVar)) := by
      rw [List.mem_map]
      refine ⟨e, he, ?_⟩
      rw [split_environ_var_eq e]
    exact mem_set_of_ne _ _ _ _ (mem_set_of_ne _ _ _ _ hx hps1) hsush

/-- Claim C3, counterexample to the spec's wording: the entry `FOO`
(no `=`) is inserted with an empty value rather than being ignored. -/
theorem c3_counterexample :
    (match environ_init ["PWD=/".toList, "FOO".toList] with
     | some st => decide ((⟨"FOO".toList, ([] : List Char)⟩ : EnvVar) ∈ st)
     | none => false) = true := by
  decide

/-- Claim C4 (amended).  After `environ_init` the store always contains
`PS1` and `SUSHHOME`, but they are set unconditionally — `PS1` to `">"`
and `SUSHHOME` to the inherited `PWD` value — not merely injected when
absent: an inherited `PS1` is overwritten (see `c4_counterexample`). -/
theorem c4_environ_init_ps1 (envp : List (List Char)) (st : Environment)
    (hinit : environ_init envp = some st) :
    environ_var_exist st ("PS1".toList) = true ∧
    environ_var_exist st ("SUSHHOME".toList) = true ∧
    (environ_get_var st ("PS1".toList)).map EnvVar.value = some (">".toList) ∧
    ∃ pwd, environ_get_var st ("PWD".toList) = some pwd ∧
      (environ_get_var st ("SUSHHOME".toList)).map EnvVar.value = some pwd.value := by
  unfold environ_init at hinit
  cases hpwd : environ_get_var
      (environ_set_var
        (envp.map (fun e2 => (⟨(split_environ_var e2).1, (split_environ_var e2).2⟩ : EnvVar)))
        ("PS1".toList) (">".toList)) ("PWD".toList) with
  | none => simp only [hpwd] at hinit; exact absurd hinit (by simp)
  | some pwd =>
    simp only [hpwd] at hinit
    simp only [Option.some.injEq] at hinit
    subst hinit
    have hgsush := get_set_self
      (environ_set_var
        (envp.map (fun e2 => (⟨(split_environ_var e2).1, (split_environ_var e2).2⟩ : EnvVar)))
        ("PS1".toList) (">".toList)) ("SUSHHOME".toList) pwd.value
    have hgps1 : environ_get_var
        (environ_set_var
          (environ_set_var
            (envp.map (fun e2 => (⟨(split_environ_var e2).1, (split_environ_var e2).2⟩ : EnvVar)))
            ("PS1".toList) (">".toList)) ("SUSHHOME".toList) pwd.value) ("PS1".toList) =
        some ⟨"PS1".toList, ">".toList⟩ := by
      rw [get_set_ne _ _ _ _ (by decide)]
      exact get_set_self _ _ _
    have hgpwd : environ_get_var
        (environ_set_var
          (environ_set_var
            (envp.map (fun e2 => (⟨(split_environ_var e2).1, (split_environ_var e2).2⟩ : EnvVar)))
            ("PS1".toList) (">".toList)) ("SUSHHOME".toList) pwd.value) ("PWD".toList) =
        some pwd := by
      rw [get_set_ne _ _ _ _ (by decide)]
      exact hpwd
    refine ⟨exist_of_get_some _ _ _ hgps1, exist_of_get_some _ _ _ hgsush, ?_, pwd, hgpwd, ?_⟩
    · rw [hgps1]
      rfl
    · rw [hgsush]
      rfl

/-- Claim C4, counterexample to the spec's wording: an inherited
`PS1=$` does not survive `environ_init`; its value is `">"` afterwards. -/
theorem c4_counterexample :
    (match environ_init ["PWD=/".toList, "PS1=$".toList] with
     | some st => decide ((environ_get_var st ("PS1".toList)).map EnvVar.value = some (">".toList))
     | none => false) = true := by
  decide

end Env
end Sush

namespace Sush
namespace Env

/-- Claim C3, instance of the amended splitting property on a concrete
inherited environment. -/
theorem c3_witness :
    ∃ st, environ_init ["PWD=/".toList, "A=b".toList] = some st ∧
      (⟨"A".toList, "b".toList⟩ : EnvVar) ∈ st := by
  cases hinit : environ_init ["PWD=/".toList, "A=b".toList] with
  | none => exact absurd hinit (by decide)
  | some st =>
    refine ⟨st, rfl, ?_⟩
    have h := c3_environ_init_split ["PWD=/".toList, "A=b".toList] st ("A=b".toList) hinit
      (by decide) (by decide) (by decide)
    have heq1 : "A=b".toList.takeWhile (fun c => c ≠ '=') = "A".toList := by decide
    have heq2 : ("A=b".toList.dropWhile (fun c => c ≠ '=')).drop 1 = "b".toList := by decide
    rw [heq1, heq2] at h
    exact h

/-- Claim C4, instance of the amended property on a concrete inherited
environment. -/
theorem c4_witness :
    ∃ st, environ_init ["PWD=/".toList] = some st ∧
      environ_var_exist st ("PS1".toList) = true ∧
      environ_var_exist st ("SUSHHOME".toList) = true := by
  cases hinit : environ_init ["PWD=/".toList] with
  | none => exact absurd hinit (by decide)
  | some st =>
    have h := c4_environ_init_ps1 ["PWD=/".toList] st hinit
    exact ⟨st, rfl, h.1, h.2.1⟩

end Env

namespace Intern

open Env

/-- Claim C7 (confirmed).  `setenv FOO bar` followed by `getenv FOO`
succeeds and prints exactly `FOO=bar` with a trailing newline, for every
name, value and starting environment. -/
theorem c7_setenv_getenv_roundtrip (environment : Environment) (foo bar : List Char) :
    (handle_setenv (mkICmd ["setenv".toList, foo, bar]) environment).1 = SUCCESS ∧
    (handle_setenv (mkICmd ["setenv".toList, foo, bar]) environment).2.2 = [] ∧
    (handle_getenv (mkICmd ["getenv".toList, foo])
      (handle_setenv (mkICmd ["setenv".toList, foo, bar]) environment).2.1).1 = SUCCESS ∧
    (handle_getenv (mkICmd ["getenv".toList, foo])
      (handle_setenv (mkICmd ["setenv".toList, foo, bar]) environment).2.1).2.1 =
      [foo ++ "=".toList ++ bar ++ "\n".toList] ∧
    (handle_getenv (mkICmd ["getenv".toList, foo])
      (handle_setenv (mkICmd ["setenv".toList, foo, bar]) environment).2.1).2.2 = [] := by
  have hset : handle_setenv (mkICmd ["setenv".toList, foo, bar]) environment =
      (SUCCESS, environ_set_var environment foo bar, []) := by
    unfold handle_setenv mkICmd ARGC_OFFSET
    norm_num
  rw [hset]
  have hget := get_set_self environment foo bar
  have hex := exist_set_self environment foo bar
  have hgetenv : handle_getenv (mkICmd ["getenv".toList, foo]) (environ_set_var environment foo bar) =
      (SUCCESS, [foo ++ "=".toList ++ bar ++ "\n".toList], []) := by
    unfold handle_getenv mkICmd ARGC_OFFSET
    norm_num
    rw [hex]
    simp only [if_true]
    rw [hget]
  rw [hgetenv]
  norm_num

/-- Claim C9 (confirmed).  `cd` with one argument always returns
`SUCCESS` and prints no diagnostic; `PWD` is set to the directory
`getcwd` reports after the `chdir` attempt, which is the target when it
resolves and the unchanged current directory when it does not. -/
theorem c9_cd_always_success (environment : Environment) (os : OS) (arg : List Char) :
    (handle_cd (mkICmd ["cd".toList, arg]) environment os).1 = SUCCESS ∧
    (handle_cd (mkICmd ["cd".toList, arg]) environment os).2.2.2 = [] ∧
    (handle_cd (mkICmd ["cd".toList, arg]) environment os).2.2.1.cwd =
      ((os.resolve arg).getD os.cwd) ∧
    (environ_get_var (handle_cd (mkICmd ["cd".toList, arg]) environment os).2.1
      ("PWD".toList)).map EnvVar.value = some ((os.resolve arg).getD os.cwd) := by
  have hchdir : (chdir os arg).cwd = (os.resolve arg).getD os.cwd := by
    unfold chdir
    cases os.resolve arg <;> rfl
  have hcd : handle_cd (mkICmd ["cd".toList, arg]) environment os =
      (SUCCESS, environ_set_var environment ("PWD".toList) (getcwd (chdir os arg)),
        chdir os arg, []) := by
    unfold handle_cd mkICmd ARGC_OFFSET
    norm_num
  rw [hcd]
  refine ⟨rfl, rfl, hchdir, ?_⟩
  rw [show getcwd (chdir os arg) = (chdir os arg).cwd from rfl]
  rw [get_set_self environment ("PWD".toList) (chdir os arg).cwd]
  rw [Option.map_some']
  rw [hchdir]

end Intern
end Sush

namespace Sush
namespace BG

open Parse

/-- Claim C2 (code bug).  `is_valid_background_command` (background.c) is
meant to reject any pipe or file redirection, but its fourth test reads
`command->file_in` a second time instead of `command->file_out`, so a
command whose stdout is redirected to a file passes the check. -/
theorem c2_queue_accepts_stdout_file_redirection :
    is_valid_background_command
      { num_tokens := 3, tokens := ["cmd".toList, "arg".toList], cmd_name := some ("cmd".toList),
        pipe_in := false, pipe_out := false,
        file_in := REDIRECT_NONE, infile := none,
        file_out := FILE_OUT_OVERWRITE, outfile := some ("f".toList) } = true := by
  decide

theorem output_scan_no_match (job_id : Int) :
    (q : List QItem) → (fs : FS) → (∀ item ∈ q, item.job_id ≠ job_id) →
    output_scan job_id fs q = some (q, fs, [], [])
  | [], _, _ => rfl
  | item :: rest, fs, h => by
    have hne : ¬ (job_id = item.job_id) := fun hc => h item (List.mem_cons_self _ _) hc.symm
    unfold output_scan
    rw [if_neg hne]
    rw [output_scan_no_match job_id rest fs (fun x hx => h x (List.mem_cons_of_mem _ hx))]

theorem cancel_scan_no_match (job_id : Int) :
    (q : List QItem) → (fs : FS) → (∀ item ∈ q, item.job_id ≠ job_id) →
    cancel_scan job_id fs q = (q, fs, [])
  | [], _, _ => rfl
  | item :: rest, fs, h => by
    have hne : ¬ (job_id = item.job_id) := fun hc => h item (List.mem_cons_self _ _) hc.symm
    unfold cancel_scan
    rw [if_neg hne]
    rw [cancel_scan_no_match job_id rest fs (fun x hx => h x (List.mem_cons_of_mem _ hx))]

/-- Claim C10 (confirmed).  When no queue item carries the requested job
id, `print_output_and_remove` and `attempt_cancel_command` leave the whole
state unchanged and print nothing (the scans fall through silently). -/
theorem c10_unknown_job_noop (st : BGState) (job_id : Int)
    (h : ∀ item ∈ st.queue, item.job_id ≠ job_id) :
    print_output_and_remove job_id st = some st ∧ attempt_cancel_command job_id st = st := by
  constructor
  · unfold print_output_and_remove
    rw [output_scan_no_match job_id st.queue st.fs h]
    simp
  · unfold attempt_cancel_command
    rw [cancel_scan_no_match job_id st.queue st.fs h]
    simp

/-- Claim C10, instance at a concrete empty queue. -/
theorem c10_witness :
    print_output_and_remove 5 (bg_init []) = some (bg_init []) ∧
    attempt_cancel_command 5 (bg_init []) = bg_init [] :=
  c10_unknown_job_noop (bg_init []) 5 (by decide)

end BG
end Sush

namespace Sush
namespace BG

theorem fs_lookup_eq_none_of_not_mem :
    (fs : FS) → (fname : List Char) → fname ∉ fs.map Prod.fst →
    fs_lookup fs fname = none
  | [], _, _ => rfl
  | e :: rest, fname, h => by
    have hne : ¬ (e.1 = fname) := by
      intro hc
      exact h (by simp only [List.map_cons, List.mem_cons]; exact Or.inl hc.symm)
    unfold fs_lookup
    rw [List.find?_cons_of_neg _ (by simp [hne])]
    have hrest : fname ∉ rest.map Prod.fst := by
      intro hc
      exact h (by simp only [List.map_cons, List.mem_cons]; exact Or.inr hc)
    have hr := fs_lookup_eq_none_of_not_mem rest fname hrest
    unfold fs_lookup at hr
    exact hr

theorem fs_lookup_remove_self :
    (fs : FS) → (fname : List Char) → (fs.map Prod.fst).Nodup →
    fs_lookup (fs_remove fs fname) fname = none
  | [], _, _ => rfl
  | e :: rest, fname, hnodup => by
    rw [List.map_cons] at hnodup
    obtain ⟨hhead, htail⟩ := List.nodup_cons.mp hnodup
    unfold fs_remove
    by_cases he : e.1 = fname
    · rw [if_pos he]
      apply fs_lookup_eq_none_of_not_mem
      rw [he] at hhead
      exact hhead
    · rw [if_neg he]
      unfold fs_lookup
      rw [List.find?_cons_of_neg _ (by simp [he])]
      have hr := fs_lookup_remove_self rest fname htail
      unfold fs_lookup at hr
      exact hr

theorem output_scan_cons_ne (job_id : Int) (x : QItem) (rest : List QItem) (fs : FS)
    (hne : ¬ (job_id = x.job_id)) :
    output_scan job_id fs (x :: rest) =
      (match output_scan job_id fs rest with
       | none => none
       | some (q, f, s, m) => some (x :: q, f, s, m)) := by
  conv_lhs => unfold output_scan
  rw [if_neg hne]

theorem output_scan_front (job_id : Int) :
    (pre : List QItem) → (suf : List QItem) → (fs : FS) →
    (∀ x ∈ pre, x.job_id ≠ job_id) →
    output_scan job_id fs (pre ++ suf) =
      (match output_scan job_id fs suf with
       | none => none
       | some (q, f, s, m) => some (pre ++ q, f, s, m))
  | [], suf, fs, _ => by
    simp only [List.nil_append]
    cases h : output_scan job_id fs suf with
    | none => rfl
    | some r => obtain ⟨q, f, s, m⟩ := r; rfl
  | x :: pre, suf, fs, h => by
    have hne : ¬ (job_id = x.job_id) := fun hc => h x (List.mem_cons_self _ _) hc.symm
    rw [List.cons_append, output_scan_cons_ne job_id x (pre ++ suf) fs hne]
    rw [output_scan_front job_id pre suf fs (fun y hy => h y (List.mem_cons_of_mem _ hy))]
    cases hscan : output_scan job_id fs suf with
    | none => rfl
    | some r => obtain ⟨q, f, s, m⟩ := r; rfl

end BG
end Sush

namespace Sush
namespace BG

/-- Claim C6 (confirmed).  For a job id resolving to a queue item: if the
item is running or merely queued, `output N` only appends the matching
error message and leaves the queue, file system and streamed output
unchanged; if the item is complete, its captured file is streamed to
stdout and afterwards the item is gone from the queue and its capture
file is gone from disk. -/
theorem c6_output_recall (st : BGState) (job_id : Int) (pre post : List QItem) (item : QItem)
    (content : List Char)
    (hq : st.queue = pre ++ item :: post)
    (hpre : ∀ x ∈ pre, x.job_id ≠ job_id)
    (hitem : item.job_id = job_id) :
    ((item.pid ≠ 0 ∧ item.is_complete = false →
        print_output_and_remove job_id st =
          some { st with errs := st.errs ++ [Msg.outputRunning item.job_id] }) ∧
     (item.pid = 0 ∧ item.is_complete = false →
        print_output_and_remove job_id st =
          some { st with errs := st.errs ++ [Msg.outputQueued item.job_id] }) ∧
     (item.is_complete = true →
      fs_lookup st.fs item.outfile = some content →
      (∀ x ∈ post, x.job_id ≠ job_id) →
      (st.fs.map Prod.fst).Nodup →
      ∃ st2, print_output_and_remove job_id st = some st2 ∧
        st2.queue = pre ++ post ∧
        (∀ x ∈ st2.queue, x.job_id ≠ job_id) ∧
        fs_lookup st2.fs item.outfile = none ∧
        st2.streamed = st.streamed ++ [content] ∧
        st2.errs = st.errs)) := by
  have hitem2 : job_id = item.job_id := hitem.symm
  refine ⟨?_, ?_, ?_⟩
  · rintro ⟨hpid, hcomp⟩
    have hscan : output_scan job_id st.fs st.queue =
        some (pre ++ item :: post, st.fs, [], [Msg.outputRunning item.job_id]) := by
      rw [hq, output_scan_front job_id pre (item :: post) st.fs hpre]
      conv_lhs => unfold output_scan
      rw [if_pos hitem2, if_pos ⟨hpid, hcomp⟩]
    unfold print_output_and_remove
    rw [hscan]
    simp [← hq]
  · rintro ⟨hpid, hcomp⟩
    have hnotrun : ¬ (item.pid ≠ 0 ∧ item.is_complete = false) := by
      rw [hpid]
      simp
    have hscan : output_scan job_id st.fs st.queue =
        some (pre ++ item :: post, st.fs, [], [Msg.outputQueued item.job_id]) := by
      rw [hq, output_scan_front job_id pre (item :: post) st.fs hpre]
      conv_lhs => unfold output_scan
      rw [if_pos hitem2, if_neg hnotrun, if_pos ⟨hpid, hcomp⟩]
    unfold print_output_and_remove
    rw [hscan]
    simp [← hq]
  · intro hcomp hlook hpost hnodup
    have hnotrun : ¬ (item.pid ≠ 0 ∧ item.is_complete = false) := by
      rw [hcomp]
      simp
    have hnotq : ¬ (item.pid = 0 ∧ item.is_complete = false) := by
      rw [hcomp]
      simp
    have hscan : output_scan job_id st.fs st.queue =
        some (pre ++ post, delete_file_and_remove_command st.fs item, [content], []) := by
      rw [hq, output_scan_front job_id pre (item :: post) st.fs hpre]
      conv_lhs => unfold output_scan
      rw [if_pos hitem2, if_neg hnotrun, if_neg hnotq, hlook]
    unfold print_output_and_remove
    rw [hscan]
    refine ⟨_, rfl, rfl, ?_, ?_, by simp, by simp⟩
    · intro x hx
      simp only [List.mem_append] at hx
      rcases hx with hx | hx
      · exact hpre x hx
      · exact hpost x hx
    · unfold delete_file_and_remove_command
      exact fs_lookup_remove_self st.fs item.outfile hnodup

end BG
end Sush

namespace Sush
namespace BG

/-- Claim C6, instance of all three branches on concrete one-item
states. -/
theorem c6_witness :
    ∃ st2,
      print_output_and_remove 0
        ⟨1, false, [⟨7, 0, "f".toList, true⟩], [("f".toList, "out".toList)], [], [], [], [0]⟩ =
        some st2 ∧
      st2.queue = [] ∧ (∀ x ∈ st2.queue, x.job_id ≠ 0) ∧
      fs_lookup st2.fs ("f".toList) = none ∧
      st2.streamed = ["out".toList] ∧ st2.errs = [] := by
  have h := (c6_output_recall
      ⟨1, false, [⟨7, 0, "f".toList, true⟩], [("f".toList, "out".toList)], [], [], [], [0]⟩
      0 [] [] ⟨7, 0, "f".toList, true⟩ ("out".toList) rfl (by simp) rfl).2.2
    rfl (by decide) (by simp) (by decide)
  obtain ⟨st2, h1, h2, h3, h4, h5, h6⟩ := h
  exact ⟨st2, h1, by simpa using h2, h3, h4, by simpa using h5, h6⟩

end BG
end Sush

namespace Sush
namespace BG

theorem dequeue_mark_ids (newpid : Int) :
    (q : List QItem) → ((dequeue_mark newpid q).1.map QItem.job_id = q.map QItem.job_id)
  | [] => rfl
  | item :: rest => by
    unfold dequeue_mark
    by_cases hc : ¬ item.is_complete = true
    · rw [if_pos hc]
      by_cases hp : newpid < 0 <;> simp [hp]
    · rw [if_neg hc]
      simp only [List.map_cons]
      rw [← dequeue_mark_ids newpid rest]

theorem dequeue_and_execute_ids (newpid : Int) (st : BGState) :
    (dequeue_and_execute newpid st).queue.map QItem.job_id = st.queue.map QItem.job_id ∧
    (dequeue_and_execute newpid st).job_count = st.job_count ∧
    (dequeue_and_execute newpid st).assigned = st.assigned := by
  unfold dequeue_and_execute
  cases hm : dequeue_mark newpid st.queue with
  | mk q found =>
    have hids := dequeue_mark_ids newpid st.queue
    rw [hm] at hids
    cases found with
    | false => exact ⟨rfl, rfl, rfl⟩
    | true => exact ⟨hids, rfl, rfl⟩

theorem output_scan_ids_sublist (job_id : Int) :
    (q q2 : List QItem) → (fs f2 : FS) → (s : List (List Char)) → (m : List Msg) →
    output_scan job_id fs q = some (q2, f2, s, m) →
    List.Sublist (q2.map QItem.job_id) (q.map QItem.job_id)
  | [], q2, fs, f2, s, m, h => by
    simp [output_scan] at h
    simp [h.1]
  | item :: rest, q2, fs, f2, s, m, h => by
    rw [show output_scan job_id fs (item :: rest) =
        (if job_id = item.job_id then
          if item.pid ≠ 0 ∧ item.is_complete = false then
            some (item :: rest, fs, [], [Msg.outputRunning item.job_id])
          else if item.pid = 0 ∧ item.is_complete = false then
            some (item :: rest, fs, [], [Msg.outputQueued item.job_id])
          else
            match fs_lookup fs item.outfile with
            | none => none
            | some content => some (rest, delete_file_and_remove_command fs item, [content], [])
        else
          match output_scan job_id fs rest with
          | none => none
          | some (q, f, s, m) => some (item :: q, f, s, m)) from by
      conv_lhs => unfold output_scan] at h
    by_cases hj : job_id = item.job_id
    · rw [if_pos hj] at h
      by_cases h1 : item.pid ≠ 0 ∧ item.is_complete = false
      · rw [if_pos h1] at h
        simp at h
        simp [h.1]
      · rw [if_neg h1] at h
        by_cases h2 : item.pid = 0 ∧ item.is_complete = false
        · rw [if_pos h2] at h
          simp at h
          simp [h.1]
        · rw [if_neg h2] at h
          cases hl : fs_lookup fs item.outfile with
          | none => rw [hl] at h; simp at h
          | some content =>
            rw [hl] at h
            simp at h
            rw [← h.1]
            exact List.sublist_cons_of_sublist _ (List.Sublist.refl _)
    · rw [if_neg hj] at h
      cases hrec : output_scan job_id fs rest with
      | none => rw [hrec] at h; simp at h
      | some r =>
        obtain ⟨q3, f3, s3, m3⟩ := r
        rw [hrec] at h
        simp at h
        rw [← h.1]
        simp only [List.map_cons]
        exact List.Sublist.cons₂ _ (output_scan_ids_sublist job_id rest q3 fs f3 s3 m3 hrec)

end BG
end Sush

namespace Sush
namespace BG

theorem cancel_scan_ids_sublist (job_id : Int) :
    (q : List QItem) → (fs : FS) →
    List.Sublist ((cancel_scan job_id fs q).1.map QItem.job_id) (q.map QItem.job_id)
  | [], fs => by simp [cancel_scan]
  | item :: rest, fs => by
    unfold cancel_scan
    by_cases hj : job_id = item.job_id
    · rw [if_pos hj]
      by_cases h1 : item.is_complete = true ∧ item.pid ≠ 0
      · rw [if_pos h1]
        exact List.Sublist.cons₂ _ (cancel_scan_ids_sublist job_id rest fs)
      · rw [if_neg h1]
        by_cases h2 : item.is_complete = false ∧ item.pid ≠ 0
        · rw [if_pos h2]
          exact List.Sublist.cons₂ _ (cancel_scan_ids_sublist job_id rest fs)
        · rw [if_neg h2]
          exact List.sublist_cons_of_sublist _
            (cancel_scan_ids_sublist job_id rest (delete_file_and_remove_command fs item))
    · rw [if_neg hj]
      exact List.Sublist.cons₂ _ (cancel_scan_ids_sublist job_id rest fs)

theorem sig_scan_ids_sublist (signal : Int) (reaped : Int → Bool) :
    (q : List QItem) → (fs : FS) →
    List.Sublist ((sig_scan signal reaped fs q).1.map QItem.job_id) (q.map QItem.job_id)
  | [], fs => by simp [sig_scan]
  | item :: rest, fs => by
    unfold sig_scan
    by_cases hr : reaped item.pid = true
    · rw [if_pos hr]
      by_cases hk : signal = SIGKILL
      · rw [if_pos hk]
        exact List.sublist_cons_of_sublist _
          (sig_scan_ids_sublist signal reaped rest (delete_file_and_remove_command fs item))
      · rw [if_neg hk]
        have hid : (if signal = SIGCHLD then { item with is_complete := true } else item).job_id =
            item.job_id := by
          by_cases hc : signal = SIGCHLD <;> simp [hc]
        have hsub := List.Sublist.cons₂ item.job_id
          (sig_scan_ids_sublist signal reaped rest fs)
        show List.Sublist
          ((if signal = SIGCHLD then { item with is_complete := true } else item).job_id ::
            ((sig_scan signal reaped fs rest).1.map QItem.job_id))
          (item.job_id :: rest.map QItem.job_id)
        rw [hid]
        exact hsub
    · rw [if_neg hr]
      exact List.Sublist.cons₂ _ (sig_scan_ids_sublist signal reaped rest fs)

end BG
end Sush


namespace Sush
namespace BG

theorem dequeue_and_execute_job_count (newpid : Int) (st : BGState) :
    (dequeue_and_execute newpid st).job_count = st.job_count :=
  (dequeue_and_execute_ids newpid st).right.left

theorem dequeue_and_execute_assigned (newpid : Int) (st : BGState) :
    (dequeue_and_execute newpid st).assigned = st.assigned :=
  (dequeue_and_execute_ids newpid st).right.right

theorem dequeue_and_execute_queue_ids (newpid : Int) (st : BGState) :
    (dequeue_and_execute newpid st).queue.map QItem.job_id = st.queue.map QItem.job_id :=
  (dequeue_and_execute_ids newpid st).left

theorem print_output_and_remove_eq (job_id : Int) (st : BGState) (q : List QItem) (f : FS) (s : List (List Char)) (m : List Msg) (hscan : output_scan job_id st.fs st.queue = some (q, f, s, m)) :
    print_output_and_remove job_id st = some { st with queue := q, fs := f, streamed := st.streamed ++ s, errs := st.errs ++ m } := by
  unfold print_output_and_remove
  rw [hscan]

theorem print_output_and_remove_eq_none (job_id : Int) (st : BGState) (hscan : output_scan job_id st.fs st.queue = none) :
    print_output_and_remove job_id st = none := by
  unfold print_output_and_remove
  rw [hscan]

theorem attempt_cancel_command_eq (job_id : Int) (st : BGState) (q : List QItem) (f : FS) (m : List Msg) (hscan : cancel_scan job_id st.fs st.queue = (q, f, m)) :
    attempt_cancel_command job_id st = { st with queue := q, fs := f, errs := st.errs ++ m } := by
  unfold attempt_cancel_command
  rw [hscan]

theorem sig_handler_eq (signal : Int) (reaped : Int → Bool) (newpid : Int) (st : BGState) (q : List QItem) (f : FS) (m : List Msg) (run_next : Bool) (hscan : sig_scan signal reaped st.fs st.queue = (q, f, m, run_next)) :
    sig_handler signal reaped newpid st = (if run_next then dequeue_and_execute newpid { st with queue := q, fs := f, msgs := st.msgs ++ m, job_running := false } else { st with queue := q, fs := f, msgs := st.msgs ++ m, job_running := st.job_running }) := by
  unfold sig_handler
  rw [hscan]
  cases run_next with
  | false => rfl
  | true => rfl

theorem bg_step_counters (st : BGState) (op : QOp) :
    (bg_step st op).job_count = st.job_count + (if is_enqueue op then 1 else 0) ∧
    (bg_step st op).assigned = st.assigned ++ (if is_enqueue op then [st.job_count] else []) := by
  cases op with
  | enqueue outfile newpid =>
    simp only [bg_step, add_to_queue, is_enqueue]
    constructor
    · split
      · rw [dequeue_and_execute_job_count]
        simp
      · simp
    · split
      · rw [dequeue_and_execute_assigned]
        simp
      · simp
  | dequeue newpid =>
    simp only [bg_step, is_enqueue]
    rw [dequeue_and_execute_job_count, dequeue_and_execute_assigned]
    simp
  | output job_id =>
    simp only [bg_step, is_enqueue]
    cases hscan : output_scan job_id st.fs st.queue with
    | none =>
      rw [print_output_and_remove_eq_none job_id st hscan]
      simp
    | some r =>
      obtain ⟨q, f, s, m⟩ := r
      rw [print_output_and_remove_eq job_id st q f s m hscan]
      simp
  | cancel job_id =>
    simp only [bg_step, is_enqueue]
    cases hscan : cancel_scan job_id st.fs st.queue with
    | mk q r =>
      obtain ⟨f, m⟩ := r
      rw [attempt_cancel_command_eq job_id st q f m hscan]
      simp
  | sig signal reaped newpid =>
    simp only [bg_step, is_enqueue]
    cases hscan : sig_scan signal reaped st.fs st.queue with
    | mk q r =>
      obtain ⟨f, m, run_next⟩ := r
      rw [sig_handler_eq signal reaped newpid st q f m run_next hscan]
      cases run_next with
      | false =>
        rw [if_neg (by decide)]
        simp
      | true =>
        rw [if_pos rfl, dequeue_and_execute_job_count, dequeue_and_execute_assigned]
        simp

theorem invariant_of_ids_sublist (st st2 : BGState) (hsub : List.Sublist (st2.queue.map QItem.job_id) (st.queue.map QItem.job_id)) (hc : st2.job_count = st.job_count) (h : jobs_invariant st) : jobs_invariant st2 := by
  unfold jobs_invariant at h ⊢
  obtain ⟨hpw, hbound⟩ := h
  refine ⟨hpw.sublist hsub, ?_⟩
  intro i hi
  rw [hc]
  exact hbound i (hsub.subset hi)

theorem dequeue_and_execute_invariant (newpid : Int) (st : BGState) (h : jobs_invariant st) :
    jobs_invariant (dequeue_and_execute newpid st) := by
  refine invariant_of_ids_sublist st _ ?_ (dequeue_and_execute_job_count newpid st) h
  rw [dequeue_and_execute_queue_ids]

theorem bg_step_invariant (st : BGState) (op : QOp) (h : jobs_invariant st) :
    jobs_invariant (bg_step st op) := by
  cases op with
  | enqueue outfile newpid =>
    simp only [bg_step, add_to_queue]
    have hinv2 : jobs_invariant { st with queue := st.queue ++ [{ pid := 0, job_id := st.job_count, outfile := outfile, is_complete := false }], job_count := st.job_count + 1, assigned := st.assigned ++ [st.job_count] } := by
      unfold jobs_invariant at h ⊢
      obtain ⟨hpw, hbound⟩ := h
      constructor
      · simp only [List.map_append, List.map_cons, List.map_nil]
        rw [List.pairwise_append]
        refine ⟨hpw, by simp, ?_⟩
        intro a ha b hb
        simp only [List.mem_cons, List.not_mem_nil, or_false] at hb
        subst hb
        exact hbound a ha
      · intro i hi
        simp only [List.map_append, List.map_cons, List.map_nil, List.mem_append, List.mem_cons, List.not_mem_nil, or_false] at hi
        show i < st.job_count + 1
        rcases hi with hi | hi
        · have := hbound i hi
          omega
        · subst hi
          omega
    split
    · exact dequeue_and_execute_invariant newpid _ hinv2
    · exact hinv2
  | dequeue newpid =>
    simp only [bg_step]
    exact dequeue_and_execute_invariant newpid st h
  | output job_id =>
    simp only [bg_step]
    cases hscan : output_scan job_id st.fs st.queue with
    | none =>
      rw [print_output_and_remove_eq_none job_id st hscan]
      exact h
    | some r =>
      obtain ⟨q, f, s, m⟩ := r
      rw [print_output_and_remove_eq job_id st q f s m hscan]
      exact invariant_of_ids_sublist st _ (output_scan_ids_sublist job_id st.queue q st.fs f s m hscan) rfl h
  | cancel job_id =>
    simp only [bg_step]
    cases hscan : cancel_scan job_id st.fs st.queue with
    | mk q r =>
      obtain ⟨f, m⟩ := r
      rw [attempt_cancel_command_eq job_id st q f m hscan]
      have hsub := cancel_scan_ids_sublist job_id st.queue st.fs
      rw [hscan] at hsub
      exact invariant_of_ids_sublist st _ hsub rfl h
  | sig signal reaped newpid =>
    simp only [bg_step]
    cases hscan : sig_scan signal reaped st.fs st.queue with
    | mk q r =>
      obtain ⟨f, m, run_next⟩ := r
      rw [sig_handler_eq signal reaped newpid st q f m run_next hscan]
      have hsub := sig_scan_ids_sublist signal reaped st.queue st.fs
      rw [hscan] at hsub
      cases run_next with
      | false =>
        rw [if_neg (by decide)]
        exact invariant_of_ids_sublist st _ hsub rfl h
      | true =>
        rw [if_pos rfl]
        exact dequeue_and_execute_invariant newpid _ (invariant_of_ids_sublist st _ hsub rfl h)

end BG
end Sush

namespace Sush
namespace BG

theorem bg_step_ghost (st : BGState) (op : QOp) (h : bg_ghost st) : bg_ghost (bg_step st op) := by
  obtain ⟨hnn, ha⟩ := h
  obtain ⟨hc, has⟩ := bg_step_counters st op
  unfold bg_ghost
  constructor
  · rw [hc]
    split <;> omega
  · rw [has, hc, ha]
    by_cases he : is_enqueue op = true
    · simp only [if_pos he]
      rw [show (st.job_count + 1).toNat = st.job_count.toNat + 1 from by omega]
      rw [List.range_succ, List.map_append]
      simp [Int.toNat_of_nonneg hnn]
    · simp only [if_neg he]
      simp

theorem bg_foldl_job_count : (ops : List QOp) → (st : BGState) →
    (ops.foldl bg_step st).job_count = st.job_count + (count_enqueues ops : Int)
  | [], st => by simp [count_enqueues]
  | op :: rest, st => by
    rw [List.foldl_cons, bg_foldl_job_count rest (bg_step st op)]
    obtain ⟨hc, _⟩ := bg_step_counters st op
    rw [hc]
    unfold count_enqueues
    rw [List.countP_cons]
    split
    · simp
      omega
    · simp

theorem bg_foldl_ghost : (ops : List QOp) → (st : BGState) → bg_ghost st →
    bg_ghost (ops.foldl bg_step st)
  | [], _, h => h
  | op :: rest, st, h => by
    rw [List.foldl_cons]
    exact bg_foldl_ghost rest (bg_step st op) (bg_step_ghost st op h)

theorem bg_foldl_invariant : (ops : List QOp) → (st : BGState) → jobs_invariant st →
    jobs_invariant (ops.foldl bg_step st)
  | [], _, h => h
  | op :: rest, st, h => by
    rw [List.foldl_cons]
    exact bg_foldl_invariant rest (bg_step st op) (bg_step_invariant st op h)

/-- Claim C8 (confirmed).  Throughout every lifetime of queue operations,
the job ids present in the queue are strictly increasing along the queue
(hence unique) and below `job_count`; and the ids handed out by the
enqueues of the lifetime are exactly `0, 1, 2, …`, one per enqueue, in
order. -/
theorem c8_job_ids :
    (∀ (fs : FS) (ops : List QOp), jobs_invariant (bg_run fs ops)) ∧
    (∀ (fs : FS) (ops : List QOp),
      (bg_run fs ops).assigned = (List.range (count_enqueues ops)).map Int.ofNat) := by
  constructor
  · intro fs ops
    exact bg_foldl_invariant ops (bg_init fs) (by unfold jobs_invariant bg_init; simp)
  · intro fs ops
    have hg := bg_foldl_ghost ops (bg_init fs) (by unfold bg_ghost bg_init; simp)
    have hc := bg_foldl_job_count ops (bg_init fs)
    unfold bg_run
    obtain ⟨hnn, ha⟩ := hg
    rw [ha, hc]
    simp [bg_init]

end BG
end Sush

namespace Sush
namespace Parse

/-- Claim C5, instance of the emission property at a concrete segment,
machine state and character. -/
theorem c5_witness :
    (parse_redirection_token ("a>b".toList) ⟨CHAR, 1, 0, 1⟩ '>').1 =
      (if (1 : Nat) ≠ 0 then [⟨sub_string ("a>b".toList) 0 1, TOKEN_NORMAL⟩] else [])
      ++ [⟨(if '>' = '>' ∧ ("a>b".toList).get? (1 + 1) = some '>' then ">>".toList
            else if '>' = '>' then ">".toList
            else "<".toList), TOKEN_NORMAL⟩] ∧
    (parse_redirection_token ("a>b".toList) ⟨CHAR, 1, 0, 1⟩ '>').2.position =
      (if '>' = '>' ∧ ("a>b".toList).get? (1 + 1) = some '>' then 1 + 1 else 1) :=
  c5_redirection_tokenization.left ("a>b".toList) ⟨CHAR, 1, 0, 1⟩ '>' (by decide) (by decide)
    (Or.inr rfl)

end Parse
end Sush

namespace Sush
namespace Parse

/-- Claim C1, instance of the amended equivalence on a concrete command
line. -/
theorem c1_witness :
    (parse_command ("cat x".toList) = none ↔
      ∃ j, ∃ h : j < (segments ("cat x".toList)).length,
        seg_malformed (tokenizer ((segments ("cat x".toList)).get ⟨j, h⟩)) j) :=
  c1_parse_command_reject_iff ("cat x".toList)

end Parse
end Sush

namespace Sush
namespace Intern

open Env

/-- Claim C7, instance of the round trip at a concrete name and value. -/
theorem c7_witness :
    (handle_setenv (mkICmd ["setenv".toList, "A".toList, "B".toList]) []).1 = SUCCESS ∧
    (handle_setenv (mkICmd ["setenv".toList, "A".toList, "B".toList]) []).2.2 = [] ∧
    (handle_getenv (mkICmd ["getenv".toList, "A".toList])
      (handle_setenv (mkICmd ["setenv".toList, "A".toList, "B".toList]) []).2.1).1 = SUCCESS ∧
    (handle_getenv (mkICmd ["getenv".toList, "A".toList])
      (handle_setenv (mkICmd ["setenv".toList, "A".toList, "B".toList]) []).2.1).2.1 =
      ["A".toList ++ "=".toList ++ "B".toList ++ "\n".toList] ∧
    (handle_getenv (mkICmd ["getenv".toList, "A".toList])
      (handle_setenv (mkICmd ["setenv".toList, "A".toList, "B".toList]) []).2.1).2.2 = [] :=
  c7_setenv_getenv_roundtrip [] ("A".toList) ("B".toList)

/-- Claim C9, instance at a concrete failing `chdir`. -/
theorem c9_witness :
    (handle_cd (mkICmd ["cd".toList, "tmp".toList]) [] ⟨"/".toList, fun _ => none⟩).1 = SUCCESS ∧
    (handle_cd (mkICmd ["cd".toList, "tmp".toList]) [] ⟨"/".toList, fun _ => none⟩).2.2.2 = [] ∧
    (handle_cd (mkICmd ["cd".toList, "tmp".toList]) [] ⟨"/".toList, fun _ => none⟩).2.2.1.cwd =
      (((⟨"/".toList, fun _ => none⟩ : OS).resolve ("tmp".toList)).getD
        (⟨"/".toList, fun _ => none⟩ : OS).cwd) ∧
    (environ_get_var (handle_cd (mkICmd ["cd".toList, "tmp".toList]) []
        ⟨"/".toList, fun _ => none⟩).2.1 ("PWD".toList)).map EnvVar.value =
      some (((⟨"/".toList, fun _ => none⟩ : OS).resolve ("tmp".toList)).getD
        (⟨"/".toList, fun _ => none⟩ : OS).cwd) :=
  c9_cd_always_success [] ⟨"/".toList, fun _ => none⟩ ("tmp".toList)

end Intern
end Sush
